import Mathlib

/-!
Verification of the AptosDB truncation tool
(`storage/aptosdb/src/db_debugger/truncation/mod.rs`).

The two RocksDB column-family stores are embedded as Lean structures whose
tables are association lists keyed by `Nat` (or pairs of `Nat`); a table's
iterator order in RocksDB is ascending key order, and every loop in the
source either deletes everything an iterator yields or checks a per-item
assertion, so each loop is order-insensitive and is embedded as a `filter`
(deletion) or an `all` check (assertion) over the table.

Rust `u64` arithmetic is embedded as `Nat` with explicit wrapping
(`wrap`/`wsub`): release-mode Rust wraps on overflow, and the places where
the source can underflow (`current_version - batch_size + 1`) matter for
the claims. Panics (`assert!`, `expect`, `unwrap`) are embedded as `none`
in `Option`-valued functions.
-/

/-! ## u64 arithmetic -/

/-- One beyond the largest `u64`, `2^64`. -/
def u64Mod : Nat := 2 ^ 64

/-- `u64::max_value()`. -/
def u64Max : Nat := 2 ^ 64 - 1

/-- Reduction of a `Nat` into `u64` range. -/
def wrap (a : Nat) : Nat := a % u64Mod

/-- Wrapping `u64` subtraction, as release-mode Rust computes `a - b`. -/
def wsub (a b : Nat) : Nat := (wrap a + u64Mod - wrap b) % u64Mod

theorem wrap_lt (a : Nat) : wrap a < u64Mod :=
  Nat.mod_lt _ (by simp [u64Mod])

theorem wrap_eq_of_lt {a : Nat} (h : a < u64Mod) : wrap a = a :=
  Nat.mod_eq_of_lt h

theorem wsub_of_le {a b : Nat} (hba : b ≤ a) (ha : a < u64Mod) : wsub a b = a - b := by
  unfold wsub
  rw [wrap_eq_of_lt ha, wrap_eq_of_lt (Nat.lt_of_le_of_lt hba ha)]
  have h1 : a + u64Mod - b = (a - b) + u64Mod := by omega
  rw [h1, Nat.add_mod_right, Nat.mod_eq_of_lt (by omega)]

theorem wsub_self {a : Nat} (ha : a < u64Mod) : wsub a a = 0 := by
  rw [wsub_of_le (Nat.le_refl a) ha, Nat.sub_self]

/-! ## Popcount (`u64::count_ones`) -/

/-- Fueled binary-digit recursion computing popcount; `fuel` bounds the
number of halvings, and `fuel = n` always suffices. Structural recursion
keeps the function kernel-evaluable. -/
def countOnesGo : Nat → Nat → Nat
  | 0, _ => 0
  | _ + 1, 0 => 0
  | fuel + 1, n + 1 => (n + 1) % 2 + countOnesGo fuel ((n + 1) / 2)

/-- The number of ones in the binary representation of `n`
(Rust's `count_ones`). -/
def countOnes (n : Nat) : Nat := countOnesGo n n

theorem countOnesGo_stable : ∀ f1 f2 m, m ≤ f1 → m ≤ f2 →
    countOnesGo f1 m = countOnesGo f2 m := by
  intro f1
  induction f1 with
  | zero =>
    intro f2 m h1 h2
    have hm : m = 0 := by omega
    subst hm
    cases f2 <;> rfl
  | succ f ih =>
    intro f2 m h1 h2
    cases m with
    | zero => cases f2 <;> rfl
    | succ k =>
      cases f2 with
      | zero => omega
      | succ f2 =>
        show (k + 1) % 2 + countOnesGo f ((k + 1) / 2)
          = (k + 1) % 2 + countOnesGo f2 ((k + 1) / 2)
        congr 1
        exact ih f2 ((k + 1) / 2) (by omega) (by omega)

theorem countOnes_zero : countOnes 0 = 0 := rfl

theorem countOnes_succ (n : Nat) :
    countOnes (n + 1) = (n + 1) % 2 + countOnes ((n + 1) / 2) := by
  show countOnesGo (n + 1) (n + 1) = (n + 1) % 2 + countOnesGo ((n + 1) / 2) ((n + 1) / 2)
  rw [countOnesGo]
  congr 1
  exact countOnesGo_stable n ((n + 1) / 2) ((n + 1) / 2) (by omega) (by omega)

theorem countOnes_two_mul (k : Nat) : countOnes (2 * k) = countOnes k := by
  cases k with
  | zero => rfl
  | succ m =>
    show countOnes (2 * m + 1 + 1) = countOnes (m + 1)
    rw [countOnes_succ]
    have h1 : (2 * m + 1 + 1) % 2 = 0 := by omega
    have h2 : (2 * m + 1 + 1) / 2 = m + 1 := by omega
    rw [h1, h2, Nat.zero_add]

theorem countOnes_two_mul_add_one (k : Nat) : countOnes (2 * k + 1) = countOnes k + 1 := by
  rw [countOnes_succ]
  have h1 : (2 * k + 1) % 2 = 1 := by omega
  have h2 : (2 * k + 1) / 2 = k := by omega
  rw [h1, h2, Nat.add_comm]

theorem countOnes_le (n : Nat) : countOnes n ≤ n := by
  induction n using Nat.strong_induction_on with
  | _ n ih =>
    match n with
    | 0 => exact Nat.le_refl 0
    | m + 1 =>
      rw [countOnes_succ]
      have hd : (m + 1) / 2 < m + 1 := Nat.div_lt_self (Nat.succ_pos m) (by omega)
      have := ih ((m + 1) / 2) hd
      omega

theorem countOnes_pos {n : Nat} (h : 0 < n) : 0 < countOnes n := by
  induction n using Nat.strong_induction_on with
  | _ n ih =>
    match n with
    | m + 1 =>
      rw [countOnes_succ]
      rcases Nat.even_or_odd (m + 1) with he | ho
      · obtain ⟨k, hk⟩ := he
        have hk' : m + 1 = 2 * k := by omega
        have hkpos : 0 < k := by omega
        have hd : (m + 1) / 2 = k := by omega
        rw [hd]
        have := ih k (by omega) hkpos
        omega
      · have h1 : (m + 1) % 2 = 1 := Nat.odd_iff.mp ho
        omega

theorem countOnes_succ_le (n : Nat) : countOnes (n + 1) ≤ countOnes n + 1 := by
  induction n using Nat.strong_induction_on with
  | _ n ih =>
    rcases Nat.even_or_odd n with he | ho
    · obtain ⟨k, hk⟩ := he
      have hk' : n = 2 * k := by omega
      subst hk'
      rw [countOnes_two_mul, countOnes_two_mul_add_one]
    · obtain ⟨k, hk⟩ := ho
      subst hk
      have h1 : 2 * k + 1 + 1 = 2 * (k + 1) := by omega
      rw [h1, countOnes_two_mul, countOnes_two_mul_add_one]
      have : countOnes (k + 1) ≤ countOnes k + 1 := ih k (by omega)
      omega

/-! ## Accumulator index arithmetic -/

/-- `Cmd::num_frozen_nodes_in_accumulator`:
`2 * num_leaves - num_leaves.count_ones() as u64` in wrapping `u64`
arithmetic. -/
def numFrozenNodesInAccumulator (numLeaves : Nat) : Nat :=
  wsub (wrap (2 * numLeaves)) (countOnes numLeaves)

/-- The mathematical frozen-node count `2n - popcount n`, the value the
source computes whenever `2 * n` fits in a `u64`. -/
def frozenPure (n : Nat) : Nat := 2 * n - countOnes n

/-- The boundary position for `n` leaves: the accumulator-table key of the
first node past the frozen ones. `TransactionAccumulatorSchema` keys a node
by its postorder index, so `Position::from_postorder_index` is the identity
on table keys. -/
def boundaryPosition (n : Nat) : Nat := numFrozenNodesInAccumulator n

theorem numFrozen_eq_pure {n : Nat} (h : 2 * n < u64Mod) :
    numFrozenNodesInAccumulator n = frozenPure n := by
  unfold numFrozenNodesInAccumulator frozenPure
  rw [wrap_eq_of_lt h]
  exact wsub_of_le (Nat.le_trans (countOnes_le n) (by omega)) h

theorem frozenPure_succ_ge (n : Nat) : frozenPure n + 1 ≤ frozenPure (n + 1) := by
  unfold frozenPure
  have h1 : countOnes (n + 1) ≤ countOnes n + 1 := countOnes_succ_le n
  have h2 : countOnes n ≤ n := countOnes_le n
  have h3 : countOnes (n + 1) ≤ n + 1 := countOnes_le (n + 1)
  omega

theorem frozenPure_mono {m n : Nat} (h : m ≤ n) : frozenPure m ≤ frozenPure n := by
  induction n with
  | zero => simp [Nat.le_zero.mp h]
  | succ k ih =>
    rcases Nat.lt_or_ge m (k + 1) with hlt | hge
    · exact Nat.le_trans (ih (by omega)) (by have := frozenPure_succ_ge k; omega)
    · have : m = k + 1 := by omega
      simp [this]

theorem frozenPure_self_le (n : Nat) : n ≤ frozenPure n := by
  unfold frozenPure
  have := countOnes_le n
  omega

/-! ## Maximum key of a table

RocksDB's `seek_to_last` followed by `next` yields the entry with the
greatest key; on a table embedded as an association list this is the
maximum of the key list. -/

/-- Maximum of a list of naturals, `none` on the empty list. -/
def listMax : List Nat → Option Nat
  | [] => none
  | x :: xs =>
    match listMax xs with
    | none => some x
    | some m => some (max x m)

theorem listMax_nil : listMax [] = none := rfl

theorem listMax_eq_none {l : List Nat} (h : listMax l = none) : l = [] := by
  cases l with
  | nil => rfl
  | cons x xs =>
    rw [listMax] at h
    cases hx : listMax xs <;> simp [hx] at h

theorem listMax_mem {l : List Nat} {m : Nat} (h : listMax l = some m) : m ∈ l := by
  induction l generalizing m with
  | nil => simp [listMax] at h
  | cons x xs ih =>
    rw [listMax] at h
    cases hx : listMax xs with
    | none => rw [hx] at h; simp at h; simp [h]
    | some k =>
      rw [hx] at h
      simp at h
      rcases Nat.le_total x k with hle | hle
      · have : m = k := by omega
        subst this
        exact List.mem_cons_of_mem _ (ih hx)
      · have : m = x := by omega
        simp [this]

theorem listMax_le {l : List Nat} {m : Nat} (h : listMax l = some m) :
    ∀ x ∈ l, x ≤ m := by
  induction l generalizing m with
  | nil => simp
  | cons x xs ih =>
    rw [listMax] at h
    cases hx : listMax xs with
    | none =>
      rw [hx] at h
      simp at h
      have := listMax_eq_none hx
      subst this
      simp [h]
    | some k =>
      rw [hx] at h
      simp at h
      intro y hy
      rcases List.mem_cons.mp hy with hy | hy
      · omega
      · have := ih hx y hy
        omega

theorem listMax_eq_some {l : List Nat} {m : Nat} (hm : m ∈ l)
    (hub : ∀ x ∈ l, x ≤ m) : listMax l = some m := by
  cases hl : listMax l with
  | none => rw [listMax_eq_none hl] at hm; simp at hm
  | some k =>
    have h1 : k ≤ m := hub k (listMax_mem hl)
    have h2 : m ≤ k := listMax_le hl m hm
    have : k = m := by omega
    rw [this]

/-! ## The ledger store

One association-list table per ledger-db schema the tool touches. Values
the tool never inspects are opaque `Nat` payloads. The three tables kept by
external collaborators (`TransactionStore`'s two secondary indices and
`EventStore`'s events) carry the version they index, which is all their
spec-level pruning contract depends on. -/

@[ext]
structure LedgerDB where
  /-- `TransactionInfoSchema`: version to transaction info. -/
  txnInfo : List (Nat × Nat)
  /-- `TransactionSchema`: version to transaction. -/
  txn : List (Nat × Nat)
  /-- `VersionDataSchema`: version to version metadata. -/
  versionData : List (Nat × Nat)
  /-- `WriteSetSchema`: version to write set. -/
  writeSet : List (Nat × Nat)
  /-- `EpochByVersionSchema`: epoch-boundary version to epoch number. -/
  epochByVersion : List (Nat × Nat)
  /-- `LedgerInfoSchema`: epoch number to ledger info. -/
  ledgerInfo : List (Nat × Nat)
  /-- `TransactionAccumulatorSchema`: the schema keys a node by the
  postorder index of its `Position`, so keys here are postorder indices. -/
  accumulator : List (Nat × Nat)
  /-- `StaleStateValueIndexSchema`: key is
  `(stale_since_version, state_key)`, version-major in iteration order. -/
  staleStateValueIndex : List ((Nat × Nat) × Nat)
  /-- `StateValueSchema`: key is `(state_key, version)`. -/
  stateValue : List ((Nat × Nat) × Nat)
  /-- Transaction-by-account secondary index entries, tagged by the version
  of the transaction they index. -/
  txnByAccount : List (Nat × Nat)
  /-- Transaction-by-hash secondary index entries, tagged by version. -/
  txnByHash : List (Nat × Nat)
  /-- Event store entries, tagged by version. -/
  events : List (Nat × Nat)
deriving DecidableEq

/-- `Cmd::get_current_version_in_ledger_db`: the greatest key of the
transaction-info table (`seek_to_last` then `next`). -/
def getCurrentVersionInLedgerDb (db : LedgerDB) : Option Nat :=
  listMax (db.txnInfo.map Prod.fst)

/-- Deletion of every key in `[s, e)` from a version-keyed table, as the
per-version delete loops and range prunes do. -/
def deleteVersionRange (l : List (Nat × Nat)) (s e : Nat) : List (Nat × Nat) :=
  l.filter (fun p => !(decide (s ≤ p.1) && decide (p.1 < e)))

/-- Modelled from the spec: `TransactionStore::prune_transaction_by_account`
and `prune_transaction_by_hash` (code not under `src/`) — given the
transactions of the versions in `[s, e)`, remove their secondary-index
entries as part of the supplied atomic batch. -/
def deleteTransactionIndexData (db : LedgerDB) (s e : Nat) :
    List (Nat × Nat) × List (Nat × Nat) :=
  (deleteVersionRange db.txnByAccount s e, deleteVersionRange db.txnByHash s e)

/-- Modelled from the spec: `EventStore::prune_events` (code not under
`src/`) — remove the event entries of the versions in `[s, e)` as part of
the supplied atomic batch. -/
def pruneEvents (db : LedgerDB) (s e : Nat) : List (Nat × Nat) :=
  deleteVersionRange db.events s e

/-- `Cmd::delete_per_epoch_data`: seek the epoch-boundary table to
`start_version`; every entry found must satisfy `version < end_version`
(`assert!`, otherwise the run dies), and each hit deletes both the
boundary entry and the `LedgerInfoSchema` entry of its epoch. Returns the
new `epochByVersion` and `ledgerInfo` tables. -/
def deletePerEpochData (db : LedgerDB) (s e : Nat) :
    Option (List (Nat × Nat) × List (Nat × Nat)) :=
  if (db.epochByVersion.filter (fun p => decide (s ≤ p.1))).all
      (fun p => decide (p.1 < e)) then
    some (db.epochByVersion.filter (fun p => !decide (s ≤ p.1)),
          db.ledgerInfo.filter (fun q => !decide (q.1 ∈
            (db.epochByVersion.filter (fun p => decide (s ≤ p.1))).map Prod.snd)))
  else none

/-- `Cmd::delete_state_value_and_index`: seek the stale-state-value index
to `start_version`; every entry found must satisfy
`stale_since_version < end_version` (`assert!`), and each hit deletes the
index entry and the state value keyed by
`(state_key, stale_since_version)`. Returns the new index and state-value
tables. -/
def deleteStateValueAndIndex (db : LedgerDB) (s e : Nat) :
    Option (List ((Nat × Nat) × Nat) × List ((Nat × Nat) × Nat)) :=
  if (db.staleStateValueIndex.filter (fun p => decide (s ≤ p.1.1))).all
      (fun p => decide (p.1.1 < e)) then
    some (db.staleStateValueIndex.filter (fun p => !decide (s ≤ p.1.1)),
          db.stateValue.filter
            (fun v => !((db.staleStateValueIndex.filter (fun p => decide (s ≤ p.1.1))).any
              (fun p => decide (p.1.2 = v.1.1) && decide (p.1.1 = v.1.2)))))
  else none

/-- `Cmd::truncate_transaction_accumulator` on the accumulator table:
check that the greatest stored postorder index plus one equals the frozen
node count of `end_version` leaves (`unwrap` on the last entry and
`assert!`), then delete every node from the boundary position of
`start_version` onwards, counting deletions down from the difference of
the two frozen-node counts in wrapping `u64` and asserting the counter
lands on zero. -/
def truncateTransactionAccumulator (acc : List (Nat × Nat)) (s e : Nat) :
    Option (List (Nat × Nat)) :=
  match listMax (acc.map Prod.fst) with
  | none => none
  | some lastPos =>
    if lastPos + 1 = numFrozenNodesInAccumulator e then
      if wsub (wsub (numFrozenNodesInAccumulator e) (numFrozenNodesInAccumulator s))
          (acc.filter (fun p => decide (numFrozenNodesInAccumulator s ≤ p.1))).length = 0 then
        some (acc.filter (fun p => !decide (numFrozenNodesInAccumulator s ≤ p.1)))
      else none
    else none

/-- `Cmd::truncate_ledger_db_single_batch`: compute every deletion from
the pre-batch store (all reads go to the store; all deletes go into one
`SchemaBatch`) and apply them as one atomic write. `none` is any of the
batch's panics. -/
def truncateLedgerDbSingleBatch (db : LedgerDB) (s e : Nat) : Option LedgerDB :=
  match deletePerEpochData db s e with
  | none => none
  | some epochTables =>
    match deleteStateValueAndIndex db s e with
    | none => none
    | some staleTables =>
      match truncateTransactionAccumulator db.accumulator s e with
      | none => none
      | some acc =>
        some { txnInfo := deleteVersionRange db.txnInfo s e
               txn := deleteVersionRange db.txn s e
               versionData := deleteVersionRange db.versionData s e
               writeSet := deleteVersionRange db.writeSet s e
               epochByVersion := epochTables.1
               ledgerInfo := epochTables.2
               accumulator := acc
               staleStateValueIndex := staleTables.1
               stateValue := staleTables.2
               txnByAccount := (deleteTransactionIndexData db s e).1
               txnByHash := (deleteTransactionIndexData db s e).2
               events := pruneEvents db s e }

/-- `Cmd::truncate_ledger_db`'s while loop. `current_version` is tracked
arithmetically; `start_version` is computed by wrapping `u64` subtraction
as in the source. Returns the final store and the list of
`(start_version, end_version)` batch ranges processed, oldest batch last.
The fuel bounds the number of iterations; `currentVersion - targetVersion`
suffices whenever no `start_version` computation wraps (proved below for
the runs the claims are about). -/
def truncateLedgerDbLoop (fuel : Nat) (db : LedgerDB) (currentVersion targetVersion batchSize : Nat) :
    Option (LedgerDB × List (Nat × Nat)) :=
  if currentVersion ≤ targetVersion then
    -- loop exit followed by `assert!(current_version == target_version)`
    if currentVersion = targetVersion then some (db, []) else none
  else
    match fuel with
    | 0 => none
    | fuel + 1 =>
      match truncateLedgerDbSingleBatch db
          (max (wsub (currentVersion + 1) batchSize) (targetVersion + 1))
          (currentVersion + 1) with
      | none => none
      | some db' =>
        match truncateLedgerDbLoop fuel db'
            (max (wsub (currentVersion + 1) batchSize) (targetVersion + 1) - 1)
            targetVersion batchSize with
        | none => none
        | some r =>
          some (r.1,
            (max (wsub (currentVersion + 1) batchSize) (targetVersion + 1),
              currentVersion + 1) :: r.2)

/-- `Cmd::truncate_ledger_db`. -/
def truncateLedgerDb (db : LedgerDB) (currentVersion targetVersion batchSize : Nat) :
    Option LedgerDB :=
  (truncateLedgerDbLoop (currentVersion - targetVersion) db currentVersion targetVersion
    batchSize).map Prod.fst

/-- The batch ranges the claims describe: each batch runs from
`max(end_version - batch_size, target_version + 1)` (exact integer
arithmetic) to the previous batch's start. -/
def ledgerBatchRanges (fuel c t batchSize : Nat) : List (Nat × Nat) :=
  match fuel with
  | 0 => []
  | fuel + 1 =>
    if c ≤ t then []
    else
      (max (c + 1 - batchSize) (t + 1), c + 1) ::
        ledgerBatchRanges fuel (max (c + 1 - batchSize) (t + 1) - 1) t batchSize

/-! ## The state-merkle store

`NodeKey` encodes as the version in big-endian bytes followed by the
nibble path, so table order is version-major and the empty-path key is the
least key of its version. The only key comparisons the tool performs are
against `NodeKey::new_empty_path(v)`, and those reduce to comparisons on
the version plus an emptiness test on the path:
`key <= (v, []) iff key.version < v or (key.version = v and key.path = [])`,
and `(v, []) <= key iff v <= key.version`. -/

structure NodeKey where
  version : Nat
  path : List Nat
deriving DecidableEq

@[ext]
structure TreeDB where
  /-- `JellyfishMerkleNodeSchema`: node key to node. -/
  nodes : List (NodeKey × Nat)
  /-- `StaleNodeIndexSchema`: key is `(stale_since_version, node_key_id)`,
  version-major; the node key is opaque to the tool. -/
  staleNodeIndex : List ((Nat × Nat) × Nat)
  /-- `StaleNodeIndexCrossEpochSchema`: same key shape. -/
  staleNodeIndexCrossEpoch : List ((Nat × Nat) × Nat)
deriving DecidableEq

/-- `Cmd::find_closest_node_version_at_or_before`: `seek_for_prev` from
`NodeKey::new_empty_path(version)` returns the greatest table key at or
before `(version, [])`, whose version is the maximum version among the
qualifying keys. -/
def findClosestNodeVersionAtOrBefore (db : TreeDB) (version : Nat) : Option Nat :=
  listMax ((db.nodes.filter
    (fun p => decide (p.1.version < version) ||
      (decide (p.1.version = version) && p.1.path.isEmpty))).map (fun p => p.1.version))

/-- `Cmd::get_current_version_in_state_merkle_db`. -/
def getCurrentVersionInStateMerkleDb (db : TreeDB) : Option Nat :=
  findClosestNodeVersionAtOrBefore db u64Max

/-- `Cmd::root_exist_at_version`: a point get of
`NodeKey::new_empty_path(version)`. -/
def rootExistAtVersion (db : TreeDB) (version : Nat) : Bool :=
  db.nodes.any (fun p => decide (p.1.version = version) && p.1.path.isEmpty)

/-- `Cmd::find_tree_root_at_or_before`: try the closest node version at or
before `version`; if no root lives there, fall back to the closest epoch
boundary at or before `version` (a `seek_for_prev` on
`EpochByVersionSchema`) and try that; otherwise not found. -/
def findTreeRootAtOrBefore (ledgerDb : LedgerDB) (stateMerkleDb : TreeDB) (version : Nat) :
    Option Nat :=
  match findClosestNodeVersionAtOrBefore stateMerkleDb version with
  | none => none
  | some closestVersion =>
    if rootExistAtVersion stateMerkleDb closestVersion then
      some closestVersion
    else
      match listMax ((ledgerDb.epochByVersion.filter
          (fun p => decide (p.1 ≤ version))).map Prod.fst) with
      | none => none
      | some closestEpochVersion =>
        if rootExistAtVersion stateMerkleDb closestEpochVersion then
          some closestEpochVersion
        else none

/-- `Cmd::delete_stale_node_index_at_version` (both stale-index schemas):
seek to `version`; every entry found must have
`stale_since_version == version` (`assert!`), and each is deleted. -/
def deleteStaleNodeIndexAtVersion (l : List ((Nat × Nat) × Nat)) (version : Nat) :
    Option (List ((Nat × Nat) × Nat)) :=
  if (l.filter (fun p => decide (version ≤ p.1.1))).all
      (fun p => decide (p.1.1 = version)) then
    some (l.filter (fun p => !decide (version ≤ p.1.1)))
  else none

/-- One iteration body of `Cmd::truncate_state_merkle_db`'s loop at
current version `cv`: delete every node key at or after
`NodeKey::new_empty_path(cv)` — i.e. every node with version `>= cv` —
plus the stale-node index entries at `cv` in both schemas, as one atomic
batch. -/
def truncateStateMerkleBatch (db : TreeDB) (cv : Nat) : Option TreeDB :=
  match deleteStaleNodeIndexAtVersion db.staleNodeIndex cv with
  | none => none
  | some stale =>
    match deleteStaleNodeIndexAtVersion db.staleNodeIndexCrossEpoch cv with
    | none => none
    | some staleCross =>
      some { nodes := db.nodes.filter (fun p => decide (p.1.version < cv))
             staleNodeIndex := stale
             staleNodeIndexCrossEpoch := staleCross }

/-- `Cmd::truncate_state_merkle_db`'s loop: re-read the current version
from the store, `expect` it exists, `assert!` it is at or above the
target, stop on equality, otherwise delete one version and repeat. Also
counts the batches written. The fuel bounds iterations;
`db.nodes.length + 1` always suffices because every batch deletes at
least one node. -/
def truncateStateMerkleDbLoop (fuel : Nat) (db : TreeDB) (targetVersion : Nat) :
    Option (TreeDB × Nat) :=
  match fuel with
  | 0 => none
  | fuel + 1 =>
    match getCurrentVersionInStateMerkleDb db with
    | none => none
    | some currentVersion =>
      if currentVersion < targetVersion then none
      else if currentVersion = targetVersion then some (db, 0)
      else
        match truncateStateMerkleBatch db currentVersion with
        | none => none
        | some db' =>
          match truncateStateMerkleDbLoop fuel db' targetVersion with
          | none => none
          | some r => some (r.1, r.2 + 1)

/-- `Cmd::truncate_state_merkle_db`. -/
def truncateStateMerkleDb (db : TreeDB) (targetVersion : Nat) : Option TreeDB :=
  (truncateStateMerkleDbLoop (db.nodes.length + 1) db targetVersion).map Prod.fst

/-- The number of batch iterations `Cmd::truncate_state_merkle_db` writes. -/
def truncateStateMerkleDbSteps (db : TreeDB) (targetVersion : Nat) : Option Nat :=
  (truncateStateMerkleDbLoop (db.nodes.length + 1) db targetVersion).map Prod.snd

/-! ## The orchestrator -/

/-- Modelled from the spec: `StateStore::catch_up_state_merkle_db` (code
not under `src/`) — replay the ledger's state writes from the tree's
current version up to the ledger's current version, materializing a tree
snapshot (root node) at each replayed version. -/
def catchUpStateMerkleDb (ledgerDb : LedgerDB) (stateMerkleDb : TreeDB) : TreeDB :=
  match getCurrentVersionInLedgerDb ledgerDb, getCurrentVersionInStateMerkleDb stateMerkleDb with
  | some lv, some tv =>
    { stateMerkleDb with
      nodes := stateMerkleDb.nodes ++
        (List.range (lv - tv)).map (fun i => (⟨tv + 1 + i, []⟩, 0)) }
  | _, _ => stateMerkleDb

/-- `Cmd::run` (after the out-of-scope store opening): read both current
versions (`expect` each exists), `assert!` the target is at or below the
ledger version, `assert!` the ledger version is at or above the tree
version, locate a tree target (`expect` one exists), truncate the tree,
truncate the ledger, and catch the tree up when its target fell short of
the requested one. -/
def runCmd (ledgerDb : LedgerDB) (stateMerkleDb : TreeDB) (targetVersion batchSize : Nat) :
    Option (LedgerDB × TreeDB) :=
  match getCurrentVersionInLedgerDb ledgerDb with
  | none => none
  | some ledgerDbVersion =>
    match getCurrentVersionInStateMerkleDb stateMerkleDb with
    | none => none
    | some stateMerkleDbVersion =>
      if targetVersion ≤ ledgerDbVersion then
        if stateMerkleDbVersion ≤ ledgerDbVersion then
          match findTreeRootAtOrBefore ledgerDb stateMerkleDb targetVersion with
          | none => none
          | some stateMerkleTargetVersion =>
            match truncateStateMerkleDb stateMerkleDb stateMerkleTargetVersion with
            | none => none
            | some tdb =>
              match truncateLedgerDb ledgerDb ledgerDbVersion targetVersion batchSize with
              | none => none
              | some ldb =>
                if stateMerkleTargetVersion < targetVersion then
                  some (ldb, catchUpStateMerkleDb ldb tdb)
                else
                  some (ldb, tdb)
        else none
      else none

/-! ## Canonical truncated states and well-formedness -/

/-- The epochs of the boundary entries strictly above version `c`. -/
def epochsAbove (db : LedgerDB) (c : Nat) : List Nat :=
  (db.epochByVersion.filter (fun p => decide (c < p.1))).map Prod.snd

/-- The stale-state-value index entries strictly above version `c`. -/
def staleAbove (db : LedgerDB) (c : Nat) : List ((Nat × Nat) × Nat) :=
  db.staleStateValueIndex.filter (fun p => decide (c < p.1.1))

/-- The ledger store `db` with everything strictly above version `c`
deleted: per-version records above `c`, epoch boundaries above `c` and
their ledger infos, stale-state-value indices above `c` and the state
values they point to, accumulator nodes from the frozen-node count of
`c + 1` leaves onwards, and secondary index and event entries above `c`. -/
def ledgerTruncatedAt (db : LedgerDB) (c : Nat) : LedgerDB :=
  { txnInfo := db.txnInfo.filter (fun p => decide (p.1 ≤ c))
    txn := db.txn.filter (fun p => decide (p.1 ≤ c))
    versionData := db.versionData.filter (fun p => decide (p.1 ≤ c))
    writeSet := db.writeSet.filter (fun p => decide (p.1 ≤ c))
    epochByVersion := db.epochByVersion.filter (fun p => decide (p.1 ≤ c))
    ledgerInfo := db.ledgerInfo.filter (fun q => !decide (q.1 ∈ epochsAbove db c))
    accumulator := db.accumulator.filter (fun p => decide (p.1 < frozenPure (c + 1)))
    staleStateValueIndex := db.staleStateValueIndex.filter (fun p => decide (p.1.1 ≤ c))
    stateValue := db.stateValue.filter
      (fun v => !((staleAbove db c).any
        (fun p => decide (p.1.2 = v.1.1) && decide (p.1.1 = v.1.2))))
    txnByAccount := db.txnByAccount.filter (fun p => decide (p.1 ≤ c))
    txnByHash := db.txnByHash.filter (fun p => decide (p.1 ≤ c))
    events := db.events.filter (fun p => decide (p.1 ≤ c)) }

/-- The tree store `db` with everything strictly above version `b`
deleted. -/
def treeTruncatedAt (db : TreeDB) (b : Nat) : TreeDB :=
  { nodes := db.nodes.filter (fun p => decide (p.1.version ≤ b))
    staleNodeIndex := db.staleNodeIndex.filter (fun p => decide (p.1.1 ≤ b))
    staleNodeIndexCrossEpoch :=
      db.staleNodeIndexCrossEpoch.filter (fun p => decide (p.1.1 ≤ b)) }

/-- Well-formedness of a ledger store whose current version is `cv`: the
per-version tables cover exactly versions `0..cv`, the accumulator holds
exactly the postorder indices below the frozen-node count of `cv + 1`
leaves, every epoch boundary, stale index, secondary index and event entry
sits at a version at most `cv`, and `cv` is small enough that the frozen
node arithmetic stays inside `u64`. -/
def LedgerWF (db : LedgerDB) (cv : Nat) : Prop :=
  (∀ p ∈ db.txnInfo, p.1 ≤ cv) ∧
  (∀ v, v ≤ cv → v ∈ db.txnInfo.map Prod.fst) ∧
  (∀ p ∈ db.txn, p.1 ≤ cv) ∧
  (∀ p ∈ db.versionData, p.1 ≤ cv) ∧
  (∀ p ∈ db.writeSet, p.1 ≤ cv) ∧
  (∀ p ∈ db.epochByVersion, p.1 ≤ cv) ∧
  (db.accumulator.map Prod.fst).Perm (List.range (frozenPure (cv + 1))) ∧
  (∀ p ∈ db.staleStateValueIndex, p.1.1 ≤ cv) ∧
  (∀ p ∈ db.txnByAccount, p.1 ≤ cv) ∧
  (∀ p ∈ db.txnByHash, p.1 ≤ cv) ∧
  (∀ p ∈ db.events, p.1 ≤ cv) ∧
  2 * (cv + 1) < u64Mod

/-- Well-formedness of a tree store: node versions are below
`u64::max_value()` (so the `seek_for_prev` from
`NodeKey::new_empty_path(u64::MAX)` sees them all), and every stale-node
index entry (either schema) was written at a version that also wrote
nodes. -/
def TreeWF (db : TreeDB) : Prop :=
  (∀ p ∈ db.nodes, p.1.version < u64Max) ∧
  (∀ p ∈ db.staleNodeIndex, p.1.1 ∈ db.nodes.map (fun q => q.1.version)) ∧
  (∀ p ∈ db.staleNodeIndexCrossEpoch, p.1.1 ∈ db.nodes.map (fun q => q.1.version))

instance (db : LedgerDB) (cv : Nat) : Decidable (LedgerWF db cv) := by
  unfold LedgerWF
  infer_instance

instance (db : TreeDB) : Decidable (TreeWF db) := by
  unfold TreeWF
  infer_instance

/-- Spec invariant: every surviving tree node sits at or below the
store's current tree version (vacuously comparing against an empty store
when no version can be read). -/
def treeNodesBelowCurrent (db : TreeDB) : Bool :=
  match getCurrentVersionInStateMerkleDb db with
  | none => db.nodes.isEmpty
  | some v => db.nodes.all (fun p => decide (p.1.version ≤ v))

/-- Spec invariant: every surviving accumulator node sits strictly below
the boundary position of `current_ledger_version() + 1` leaves. -/
def accumulatorBelowBoundary (db : LedgerDB) : Bool :=
  match getCurrentVersionInLedgerDb db with
  | none => db.accumulator.isEmpty
  | some v => db.accumulator.all (fun p => decide (p.1 < boundaryPosition (v + 1)))

/-! ## List helper lemmas -/

theorem map_fst_filter_key {α : Type} (l : List (Nat × α)) (q : Nat → Bool) :
    (l.filter (fun p => q p.1)).map Prod.fst = (l.map Prod.fst).filter q := by
  induction l with
  | nil => rfl
  | cons x xs ih => cases hq : q x.1 <;> simp [List.filter_cons, hq, ih]

theorem range_filter_lt {m n : Nat} (h : m ≤ n) :
    (List.range n).filter (fun k => decide (k < m)) = List.range m := by
  induction n with
  | zero =>
    have hm : m = 0 := by omega
    simp [hm]
  | succ k ih =>
    rcases Nat.lt_or_ge m (k + 1) with hlt | hge
    · rw [List.range_succ, List.filter_append, ih (by omega)]
      have : (List.filter (fun x => decide (x < m)) [k]) = [] := by
        simp
        omega
      rw [this, List.append_nil]
    · have hm : m = k + 1 := by omega
      subst hm
      refine List.filter_eq_self.mpr ?_
      intro a ha
      simp only [decide_eq_true_eq]
      exact List.mem_range.mp ha

theorem range_filter_ge_length {m n : Nat} (h : m ≤ n) :
    ((List.range n).filter (fun k => decide (m ≤ k))).length = n - m := by
  induction n with
  | zero => simp
  | succ k ih =>
    rcases Nat.lt_or_ge k m with hlt | hge
    · have hm : m = k + 1 := by omega
      subst hm
      have : (List.range (k + 1)).filter (fun x => decide (k + 1 ≤ x)) = [] := by
        refine List.filter_eq_nil_iff.mpr ?_
        intro a ha
        have := List.mem_range.mp ha
        simp
        omega
      rw [this]
      simp
    · rw [List.range_succ, List.filter_append, List.length_append, ih hge]
      have : (List.filter (fun x => decide (m ≤ x)) [k]) = [k] := by
        simp
        omega
      rw [this]
      simp
      omega

theorem listMax_perm_range {l : List Nat} {n : Nat} (hp : l.Perm (List.range n))
    (hn : 1 ≤ n) : listMax l = some (n - 1) := by
  refine listMax_eq_some ?_ ?_
  · refine hp.mem_iff.mpr ?_
    refine List.mem_range.mpr ?_
    omega
  · intro x hx
    have := List.mem_range.mp (hp.mem_iff.mp hx)
    omega

/-! ## Composing one batch's deletions with an already-truncated store -/

theorem filter_window_collapse {α : Type} (l : List α) (key : α → Nat) {c s : Nat}
    (hs : 1 ≤ s) (hsc : s ≤ c + 1) :
    (l.filter (fun p => decide (key p ≤ c))).filter
        (fun p => !(decide (s ≤ key p) && decide (key p < c + 1)))
      = l.filter (fun p => decide (key p ≤ s - 1)) := by
  rw [List.filter_filter]
  refine List.filter_congr ?_
  intro x _
  simp only [← Bool.decide_and, ← decide_not]
  rw [decide_eq_decide]
  omega

theorem filter_tail_collapse {α : Type} (l : List α) (key : α → Nat) {c s : Nat}
    (hs : 1 ≤ s) (hsc : s ≤ c + 1) :
    (l.filter (fun p => decide (key p ≤ c))).filter (fun p => !decide (s ≤ key p))
      = l.filter (fun p => decide (key p ≤ s - 1)) := by
  rw [List.filter_filter]
  refine List.filter_congr ?_
  intro x _
  simp only [← Bool.decide_and, ← decide_not]
  rw [decide_eq_decide]
  omega

theorem deleteVersionRange_truncated (l : List (Nat × Nat)) {c s : Nat}
    (hs : 1 ≤ s) (hsc : s ≤ c + 1) :
    deleteVersionRange (l.filter (fun p => decide (p.1 ≤ c))) s (c + 1)
      = l.filter (fun p => decide (p.1 ≤ s - 1)) := by
  unfold deleteVersionRange
  exact filter_window_collapse l Prod.fst hs hsc

theorem mem_epochsAbove {db : LedgerDB} {c x : Nat} :
    x ∈ epochsAbove db c ↔ ∃ p, p ∈ db.epochByVersion ∧ c < p.1 ∧ p.2 = x := by
  unfold epochsAbove
  simp only [List.mem_map, List.mem_filter, decide_eq_true_eq]
  constructor
  · rintro ⟨p, ⟨hp, hc⟩, hx⟩
    exact ⟨p, hp, hc, hx⟩
  · rintro ⟨p, hp, hc, hx⟩
    exact ⟨p, ⟨hp, hc⟩, hx⟩

theorem deletePerEpochData_truncated (db : LedgerDB) {c s : Nat}
    (hs : 1 ≤ s) (hsc : s ≤ c + 1) :
    deletePerEpochData (ledgerTruncatedAt db c) s (c + 1)
      = some ((ledgerTruncatedAt db (s - 1)).epochByVersion,
              (ledgerTruncatedAt db (s - 1)).ledgerInfo) := by
  unfold deletePerEpochData
  have hguard : ((ledgerTruncatedAt db c).epochByVersion.filter
      (fun p => decide (s ≤ p.1))).all (fun p => decide (p.1 < c + 1)) = true := by
    refine List.all_eq_true.mpr ?_
    intro x hx
    have hx1 := (List.mem_filter.mp hx).1
    have hx2 := (List.mem_filter.mp hx1).2
    simp only [decide_eq_true_eq] at hx2 ⊢
    omega
  rw [hguard]
  simp only [if_true]
  refine congrArg some (Prod.ext ?_ ?_)
  · exact filter_tail_collapse db.epochByVersion Prod.fst hs hsc
  · show ((ledgerTruncatedAt db c).ledgerInfo).filter _ = _
    unfold ledgerTruncatedAt
    rw [List.filter_filter]
    refine List.filter_congr ?_
    intro q _
    have hmem : q.1 ∈ ((db.epochByVersion.filter (fun p => decide (p.1 ≤ c))).filter
          (fun p => decide (s ≤ p.1))).map Prod.snd
        ∨ q.1 ∈ epochsAbove db c ↔ q.1 ∈ epochsAbove db (s - 1) := by
      constructor
      · rintro (h | h)
        · simp only [List.mem_map, List.mem_filter, decide_eq_true_eq] at h
          obtain ⟨p, ⟨⟨hp, hpc⟩, hps⟩, hpx⟩ := h
          exact mem_epochsAbove.mpr ⟨p, hp, by omega, hpx⟩
        · obtain ⟨p, hp, hpc, hpx⟩ := mem_epochsAbove.mp h
          exact mem_epochsAbove.mpr ⟨p, hp, by omega, hpx⟩
      · intro h
        obtain ⟨p, hp, hpc, hpx⟩ := mem_epochsAbove.mp h
        rcases Nat.lt_or_ge c p.1 with hgt | hle
        · exact Or.inr (mem_epochsAbove.mpr ⟨p, hp, hgt, hpx⟩)
        · refine Or.inl ?_
          simp only [List.mem_map, List.mem_filter, decide_eq_true_eq]
          exact ⟨p, ⟨⟨hp, hle⟩, by omega⟩, hpx⟩
    simp only [← decide_not, ← Bool.decide_and]
    rw [decide_eq_decide]
    constructor
    · rintro ⟨hna, hnb⟩ hmem'
      rcases hmem.mpr hmem' with h | h
      · exact hna h
      · exact hnb h
    · intro hn
      exact ⟨fun h => hn (hmem.mp (Or.inl h)), fun h => hn (hmem.mp (Or.inr h))⟩

theorem mem_staleAbove {db : LedgerDB} {c : Nat} {p : (Nat × Nat) × Nat} :
    p ∈ staleAbove db c ↔ p ∈ db.staleStateValueIndex ∧ c < p.1.1 := by
  unfold staleAbove
  simp [List.mem_filter]

theorem deleteStateValueAndIndex_truncated (db : LedgerDB) {c s : Nat}
    (hs : 1 ≤ s) (hsc : s ≤ c + 1) :
    deleteStateValueAndIndex (ledgerTruncatedAt db c) s (c + 1)
      = some ((ledgerTruncatedAt db (s - 1)).staleStateValueIndex,
              (ledgerTruncatedAt db (s - 1)).stateValue) := by
  unfold deleteStateValueAndIndex
  have hguard : ((ledgerTruncatedAt db c).staleStateValueIndex.filter
      (fun p => decide (s ≤ p.1.1))).all (fun p => decide (p.1.1 < c + 1)) = true := by
    refine List.all_eq_true.mpr ?_
    intro x hx
    have hx1 := (List.mem_filter.mp hx).1
    have hx2 := (List.mem_filter.mp hx1).2
    simp only [decide_eq_true_eq] at hx2 ⊢
    omega
  rw [hguard]
  simp only [if_true]
  refine congrArg some (Prod.ext ?_ ?_)
  · exact filter_tail_collapse db.staleStateValueIndex (fun p => p.1.1) hs hsc
  · show ((ledgerTruncatedAt db c).stateValue).filter _ = _
    unfold ledgerTruncatedAt
    rw [List.filter_filter]
    refine List.filter_congr ?_
    intro v _
    have hany : ∀ mv : (Nat × Nat) × Nat → Bool,
        (staleAbove db (s - 1)).any mv =
          (((db.staleStateValueIndex.filter (fun p => decide (p.1.1 ≤ c))).filter
              (fun p => decide (s ≤ p.1.1))).any mv || (staleAbove db c).any mv) := by
      intro mv
      rw [Bool.eq_iff_iff]
      simp only [Bool.or_eq_true, List.any_eq_true, List.mem_filter, decide_eq_true_eq,
        mem_staleAbove]
      constructor
      · rintro ⟨x, ⟨hx, hxa⟩, hmv⟩
        rcases Nat.lt_or_ge c x.1.1 with hgt | hle
        · exact Or.inr ⟨x, ⟨hx, hgt⟩, hmv⟩
        · exact Or.inl ⟨x, ⟨⟨hx, hle⟩, by omega⟩, hmv⟩
      · rintro (⟨x, ⟨⟨hx, hxc⟩, hxs⟩, hmv⟩ | ⟨x, ⟨hx, hxc⟩, hmv⟩)
        · exact ⟨x, ⟨hx, by omega⟩, hmv⟩
        · exact ⟨x, ⟨hx, by omega⟩, hmv⟩
    rw [hany, Bool.not_or]

theorem accumulator_keys_perm (db : LedgerDB) {cv c : Nat}
    (hperm : (db.accumulator.map Prod.fst).Perm (List.range (frozenPure (cv + 1))))
    (hc : c ≤ cv) :
    (((ledgerTruncatedAt db c).accumulator).map Prod.fst).Perm
      (List.range (frozenPure (c + 1))) := by
  show ((db.accumulator.filter (fun p => decide (p.1 < frozenPure (c + 1)))).map
    Prod.fst).Perm _
  rw [map_fst_filter_key db.accumulator (fun k => decide (k < frozenPure (c + 1)))]
  have h1 := hperm.filter (fun k => decide (k < frozenPure (c + 1)))
  rw [range_filter_lt (frozenPure_mono (by omega))] at h1
  exact h1

theorem length_filter_fst_ge (l : List (Nat × Nat)) (bound : Nat) :
    (l.filter (fun p => decide (bound ≤ p.1))).length
      = ((l.map Prod.fst).filter (fun k => decide (bound ≤ k))).length := by
  induction l with
  | nil => rfl
  | cons x xs ih => cases h : decide (bound ≤ x.1) <;> simp [List.filter_cons, h, ih]

theorem truncateTransactionAccumulator_truncated (db : LedgerDB) {cv c s : Nat}
    (hperm : (db.accumulator.map Prod.fst).Perm (List.range (frozenPure (cv + 1))))
    (hsmall : 2 * (cv + 1) < u64Mod) (hs : 1 ≤ s) (hsc : s ≤ c) (hc : c ≤ cv) :
    truncateTransactionAccumulator ((ledgerTruncatedAt db c).accumulator) s (c + 1)
      = some ((ledgerTruncatedAt db (s - 1)).accumulator) := by
  have hcperm := accumulator_keys_perm db hperm hc
  have hfe : numFrozenNodesInAccumulator (c + 1) = frozenPure (c + 1) :=
    numFrozen_eq_pure (by omega)
  have hfs : numFrozenNodesInAccumulator s = frozenPure s :=
    numFrozen_eq_pure (by omega)
  have hfpos : 1 ≤ frozenPure (c + 1) := Nat.le_trans (by omega) (frozenPure_self_le (c + 1))
  have hmono : frozenPure s ≤ frozenPure (c + 1) := frozenPure_mono (by omega)
  have hlast : listMax (((ledgerTruncatedAt db c).accumulator).map Prod.fst)
      = some (frozenPure (c + 1) - 1) := listMax_perm_range hcperm hfpos
  have hlen : (((ledgerTruncatedAt db c).accumulator).filter
      (fun p => decide (numFrozenNodesInAccumulator s ≤ p.1))).length
      = frozenPure (c + 1) - frozenPure s := by
    rw [hfs, length_filter_fst_ge]
    rw [(hcperm.filter (fun k => decide (frozenPure s ≤ k))).length_eq]
    exact range_filter_ge_length hmono
  have hbound : frozenPure (c + 1) < u64Mod :=
    Nat.lt_of_le_of_lt (by unfold frozenPure; omega) (show 2 * (c + 1) < u64Mod by omega)
  have hg1 : frozenPure (c + 1) - 1 + 1 = numFrozenNodesInAccumulator (c + 1) := by omega
  simp only [truncateTransactionAccumulator, hlast]
  rw [if_pos hg1, hlen]
  have hg2 : wsub (wsub (numFrozenNodesInAccumulator (c + 1)) (numFrozenNodesInAccumulator s))
      (frozenPure (c + 1) - frozenPure s) = 0 := by
    rw [hfe, hfs, wsub_of_le hmono hbound]
    exact wsub_self (by omega)
  rw [if_pos hg2]
  refine congrArg some ?_
  show (db.accumulator.filter (fun p => decide (p.1 < frozenPure (c + 1)))).filter _ = _
  rw [List.filter_filter]
  refine List.filter_congr ?_
  intro x _
  rw [hfs]
  simp only [← decide_not, ← Bool.decide_and]
  rw [decide_eq_decide]
  have : frozenPure (s - 1 + 1) = frozenPure s := by
    have : s - 1 + 1 = s := by omega
    rw [this]
  rw [this]
  omega

theorem epochsAbove_nil (db : LedgerDB) {cv : Nat}
    (h : ∀ p ∈ db.epochByVersion, p.1 ≤ cv) : epochsAbove db cv = [] := by
  unfold epochsAbove
  have : db.epochByVersion.filter (fun p => decide (cv < p.1)) = [] := by
    refine List.filter_eq_nil_iff.mpr ?_
    intro a ha
    have := h a ha
    simp only [decide_eq_true_eq]
    omega
  rw [this]
  rfl

theorem staleAbove_nil (db : LedgerDB) {cv : Nat}
    (h : ∀ p ∈ db.staleStateValueIndex, p.1.1 ≤ cv) : staleAbove db cv = [] := by
  unfold staleAbove
  refine List.filter_eq_nil_iff.mpr ?_
  intro a ha
  have := h a ha
  simp only [decide_eq_true_eq]
  omega

theorem ledgerTruncatedAt_self (db : LedgerDB) {cv : Nat} (hwf : LedgerWF db cv) :
    ledgerTruncatedAt db cv = db := by
  obtain ⟨h1, h2, h3, h4, h5, h6, h7, h8, h9, h10, h11, h12⟩ := hwf
  unfold ledgerTruncatedAt
  apply LedgerDB.ext
  · exact List.filter_eq_self.mpr fun a ha => by
      simp only [decide_eq_true_eq]; exact h1 a ha
  · exact List.filter_eq_self.mpr fun a ha => by
      simp only [decide_eq_true_eq]; exact h3 a ha
  · exact List.filter_eq_self.mpr fun a ha => by
      simp only [decide_eq_true_eq]; exact h4 a ha
  · exact List.filter_eq_self.mpr fun a ha => by
      simp only [decide_eq_true_eq]; exact h5 a ha
  · exact List.filter_eq_self.mpr fun a ha => by
      simp only [decide_eq_true_eq]; exact h6 a ha
  · rw [epochsAbove_nil db h6]
    exact List.filter_eq_self.mpr fun a ha => by simp
  · refine List.filter_eq_self.mpr fun a ha => ?_
    have hmem : a.1 ∈ db.accumulator.map Prod.fst := List.mem_map_of_mem Prod.fst ha
    have := List.mem_range.mp (h7.mem_iff.mp hmem)
    simp only [decide_eq_true_eq]
    omega
  · exact List.filter_eq_self.mpr fun a ha => by
      simp only [decide_eq_true_eq]; exact h8 a ha
  · rw [staleAbove_nil db h8]
    exact List.filter_eq_self.mpr fun a ha => by simp
  · exact List.filter_eq_self.mpr fun a ha => by
      simp only [decide_eq_true_eq]; exact h9 a ha
  · exact List.filter_eq_self.mpr fun a ha => by
      simp only [decide_eq_true_eq]; exact h10 a ha
  · exact List.filter_eq_self.mpr fun a ha => by
      simp only [decide_eq_true_eq]; exact h11 a ha

theorem truncateLedgerDbSingleBatch_truncated (db : LedgerDB) {cv c s : Nat}
    (hwf : LedgerWF db cv) (hs : 1 ≤ s) (hsc : s ≤ c) (hc : c ≤ cv) :
    truncateLedgerDbSingleBatch (ledgerTruncatedAt db c) s (c + 1)
      = some (ledgerTruncatedAt db (s - 1)) := by
  obtain ⟨h1, h2, h3, h4, h5, h6, h7, h8, h9, h10, h11, h12⟩ := hwf
  have hsc1 : s ≤ c + 1 := by omega
  simp only [truncateLedgerDbSingleBatch,
    deletePerEpochData_truncated db hs hsc1,
    deleteStateValueAndIndex_truncated db hs hsc1,
    truncateTransactionAccumulator_truncated db h7 h12 hs hsc hc]
  refine congrArg some ?_
  apply LedgerDB.ext
  · exact deleteVersionRange_truncated db.txnInfo hs hsc1
  · exact deleteVersionRange_truncated db.txn hs hsc1
  · exact deleteVersionRange_truncated db.versionData hs hsc1
  · exact deleteVersionRange_truncated db.writeSet hs hsc1
  · rfl
  · rfl
  · rfl
  · rfl
  · rfl
  · exact deleteVersionRange_truncated db.txnByAccount hs hsc1
  · exact deleteVersionRange_truncated db.txnByHash hs hsc1
  · exact deleteVersionRange_truncated db.events hs hsc1

theorem truncateLedgerDbLoop_truncated (db : LedgerDB) {cv : Nat} (hwf : LedgerWF db cv) :
    ∀ fuel c t B, t ≤ c → c ≤ cv → 1 ≤ B →
      (t < c → B ≤ t + (c - t - 1) % B + 2) → c - t ≤ fuel →
      truncateLedgerDbLoop fuel (ledgerTruncatedAt db c) c t B
        = some (ledgerTruncatedAt db t, ledgerBatchRanges fuel c t B) := by
  have h12 : 2 * (cv + 1) < u64Mod := hwf.2.2.2.2.2.2.2.2.2.2.2
  intro fuel
  induction fuel with
  | zero =>
    intro c t B htc hccv hB hcond hfuel
    have hct : c = t := by omega
    subst hct
    rw [truncateLedgerDbLoop, if_pos (Nat.le_refl c), if_pos rfl]
    rfl
  | succ fuel ih =>
    intro c t B htc hccv hB hcond hfuel
    rcases Nat.eq_or_lt_of_le htc with hct | hct
    · subst hct
      rw [truncateLedgerDbLoop, if_pos (Nat.le_refl t), if_pos rfl]
      rw [ledgerBatchRanges, if_pos (Nat.le_refl t)]
    · have hcond' := hcond hct
      have hBc : B ≤ c + 1 := by
        rcases Nat.lt_or_ge c (t + B) with hcase | hcase
        · have : (c - t - 1) % B = c - t - 1 := Nat.mod_eq_of_lt (by omega)
          omega
        · omega
      have hws : wsub (c + 1) B = c + 1 - B := wsub_of_le hBc (by omega)
      have hsle : max (c + 1 - B) (t + 1) ≤ c := by omega
      have hs1 : 1 ≤ max (c + 1 - B) (t + 1) := by omega
      have hbatch := truncateLedgerDbSingleBatch_truncated db hwf hs1 hsle hccv
      rw [truncateLedgerDbLoop, if_neg (by omega)]
      rw [hws]
      rw [hbatch]
      have hrec : truncateLedgerDbLoop fuel
          (ledgerTruncatedAt db (max (c + 1 - B) (t + 1) - 1))
          (max (c + 1 - B) (t + 1) - 1) t B
          = some (ledgerTruncatedAt db t,
              ledgerBatchRanges fuel (max (c + 1 - B) (t + 1) - 1) t B) := by
        refine ih (max (c + 1 - B) (t + 1) - 1) t B (by omega) (by omega) hB ?_ (by omega)
        intro hlt
        have hseq : max (c + 1 - B) (t + 1) = c + 1 - B := by omega
        have hcB : t + B + 1 ≤ c := by omega
        have hmod : (max (c + 1 - B) (t + 1) - 1 - t - 1) % B = (c - t - 1) % B := by
          rw [hseq]
          have hx : c - t - 1 = (c + 1 - B - 1 - t - 1) + B := by omega
          rw [hx, Nat.add_mod_right]
        rw [hmod]
        exact hcond'
      simp only [hrec]
      rw [ledgerBatchRanges, if_neg (by omega)]

theorem getCurrentVersion_eq_of_wf (db : LedgerDB) {cv : Nat} (hwf : LedgerWF db cv) :
    getCurrentVersionInLedgerDb db = some cv := by
  obtain ⟨h1, h2, -⟩ := hwf
  refine listMax_eq_some (h2 cv (Nat.le_refl cv)) ?_
  intro x hx
  obtain ⟨p, hp, hpx⟩ := List.mem_map.mp hx
  have := h1 p hp
  omega

theorem getCurrentVersion_truncated (db : LedgerDB) {cv t : Nat} (hwf : LedgerWF db cv)
    (ht : t ≤ cv) : getCurrentVersionInLedgerDb (ledgerTruncatedAt db t) = some t := by
  obtain ⟨h1, h2, -⟩ := hwf
  refine listMax_eq_some ?_ ?_
  · obtain ⟨p, hp, hpt⟩ := List.mem_map.mp (h2 t ht)
    refine List.mem_map.mpr ⟨p, ?_, hpt⟩
    refine List.mem_filter.mpr ⟨hp, ?_⟩
    simp only [decide_eq_true_eq]
    omega
  · intro x hx
    obtain ⟨p, hp, hpx⟩ := List.mem_map.mp hx
    have := (List.mem_filter.mp hp).2
    simp only [decide_eq_true_eq] at this
    omega

theorem ledgerBatchRanges_all_max (t B : Nat) : ∀ fuel c,
    (ledgerBatchRanges fuel c t B).all
      (fun r => decide (r.1 = max (r.2 - B) (t + 1))) = true := by
  intro fuel
  induction fuel with
  | zero => intro c; rfl
  | succ fuel ih =>
    intro c
    rw [ledgerBatchRanges]
    by_cases hc : c ≤ t
    · rw [if_pos hc]; rfl
    · rw [if_neg hc]
      rw [List.all_cons, ih]
      simp

theorem mem_deleteVersionRange {l : List (Nat × Nat)} {s e : Nat} {p : Nat × Nat} :
    p ∈ deleteVersionRange l s e ↔ p ∈ l ∧ ¬(s ≤ p.1 ∧ p.1 < e) := by
  unfold deleteVersionRange
  simp [List.mem_filter]
  intro _
  omega

theorem singleBatch_txnInfo {db out : LedgerDB} {s e : Nat}
    (h : truncateLedgerDbSingleBatch db s e = some out) :
    out.txnInfo = deleteVersionRange db.txnInfo s e := by
  unfold truncateLedgerDbSingleBatch at h
  rcases hep : deletePerEpochData db s e with _ | ep <;> rw [hep] at h
  · exact absurd h (by simp)
  · rcases hsv : deleteStateValueAndIndex db s e with _ | sv <;> rw [hsv] at h
    · exact absurd h (by simp)
    · rcases hac : truncateTransactionAccumulator db.accumulator s e with _ | acc <;>
        rw [hac] at h
      · exact absurd h (by simp)
      · injection h with h
        rw [← h]

theorem loop_txnInfo_post : ∀ fuel c t B (st res : LedgerDB) rs,
    truncateLedgerDbLoop fuel st c t B = some (res, rs) →
    (∀ p ∈ res.txnInfo, p ∈ st.txnInfo ∧ (p.1 ≤ t ∨ c < p.1)) ∧
    (∀ p ∈ st.txnInfo, p.1 ≤ t → p ∈ res.txnInfo) := by
  intro fuel
  induction fuel with
  | zero =>
    intro c t B st res rs h
    rw [truncateLedgerDbLoop] at h
    by_cases hc : c ≤ t
    · rw [if_pos hc] at h
      by_cases he : c = t
      · rw [if_pos he] at h
        injection h with h
        injection h with h1 h2
        subst h1
        refine ⟨fun p hp => ⟨hp, by omega⟩, fun p hp hpt => hp⟩
      · rw [if_neg he] at h
        exact absurd h (by simp)
    · rw [if_neg hc] at h
      exact absurd h (by simp)
  | succ fuel ih =>
    intro c t B st res rs h
    rw [truncateLedgerDbLoop] at h
    by_cases hc : c ≤ t
    · rw [if_pos hc] at h
      by_cases he : c = t
      · rw [if_pos he] at h
        injection h with h
        injection h with h1 h2
        subst h1
        refine ⟨fun p hp => ⟨hp, by omega⟩, fun p hp hpt => hp⟩
      · rw [if_neg he] at h
        exact absurd h (by simp)
    · rw [if_neg hc] at h
      rcases hb : truncateLedgerDbSingleBatch st (max (wsub (c + 1) B) (t + 1)) (c + 1)
        with _ | mid <;> simp only [hb] at h
      · exact absurd h (by simp)
      · rcases hl : truncateLedgerDbLoop fuel mid (max (wsub (c + 1) B) (t + 1) - 1) t B
          with _ | r <;> simp only [hl] at h
        · exact absurd h (by simp)
        · injection h with h
          injection h with h1 h2
          obtain ⟨ha, hb2⟩ := ih (max (wsub (c + 1) B) (t + 1) - 1) t B mid r.1 r.2
            (by rw [hl])
          have hmid : mid.txnInfo = deleteVersionRange st.txnInfo
              (max (wsub (c + 1) B) (t + 1)) (c + 1) := singleBatch_txnInfo hb
          constructor
          · intro p hp
            rw [← h1] at hp
            obtain ⟨hpm, hpr⟩ := ha p hp
            rw [hmid] at hpm
            obtain ⟨hpst, hpdel⟩ := mem_deleteVersionRange.mp hpm
            refine ⟨hpst, ?_⟩
            rcases hpr with hle | hgt
            · exact Or.inl hle
            · have hst1 : max (wsub (c + 1) B) (t + 1) ≤ p.1 := by omega
              refine Or.inr ?_
              omega
          · intro p hp hpt
            rw [← h1]
            refine hb2 p ?_ hpt
            rw [hmid]
            refine mem_deleteVersionRange.mpr ⟨hp, ?_⟩
            have : t + 1 ≤ max (wsub (c + 1) B) (t + 1) := Nat.le_max_right _ _
            omega

theorem truncateLedgerDb_le {db : LedgerDB} {res : LedgerDB} {cv t B : Nat}
    (h : truncateLedgerDb db cv t B = some res) : t ≤ cv := by
  by_contra hlt
  unfold truncateLedgerDb at h
  have hf : cv - t = 0 := by omega
  rw [hf, truncateLedgerDbLoop, if_pos (by omega), if_neg (by omega)] at h
  exact absurd h (by simp)

theorem truncateLedgerDb_currentVersion {db res : LedgerDB} {cv t B : Nat}
    (hwf : LedgerWF db cv) (h : truncateLedgerDb db cv t B = some res) :
    getCurrentVersionInLedgerDb res = some t := by
  have htcv : t ≤ cv := truncateLedgerDb_le h
  obtain ⟨h1, h2, -⟩ := hwf
  unfold truncateLedgerDb at h
  rcases hl : truncateLedgerDbLoop (cv - t) db cv t B with _ | r <;> rw [hl] at h
  · exact absurd h (by simp)
  · injection h with h
    obtain ⟨ha, hb⟩ := loop_txnInfo_post (cv - t) cv t B db r.1 r.2 (by rw [hl])
    rw [← h]
    refine listMax_eq_some ?_ ?_
    · obtain ⟨p, hp, hpt⟩ := List.mem_map.mp (h2 t htcv)
      refine List.mem_map.mpr ⟨p, ?_, hpt⟩
      exact hb p hp (by omega)
    · intro x hx
      obtain ⟨p, hp, hpx⟩ := List.mem_map.mp hx
      obtain ⟨hpdb, hpr⟩ := ha p hp
      have := h1 p hpdb
      omega

/-! ## Tree-side lemmas -/

theorem map_version_filter (l : List (NodeKey × Nat)) (q : Nat → Bool) :
    (l.filter (fun p => q p.1.version)).map (fun p => p.1.version)
      = (l.map (fun p => p.1.version)).filter q := by
  induction l with
  | nil => rfl
  | cons x xs ih => cases h : q x.1.version <;> simp [List.filter_cons, h, ih]

theorem getCurrentTree_eq_listMax {db : TreeDB}
    (hb : ∀ p ∈ db.nodes, p.1.version < u64Max) :
    getCurrentVersionInStateMerkleDb db
      = listMax (db.nodes.map (fun p => p.1.version)) := by
  unfold getCurrentVersionInStateMerkleDb findClosestNodeVersionAtOrBefore
  have hfull : db.nodes.filter (fun p => decide (p.1.version < u64Max) ||
      (decide (p.1.version = u64Max) && p.1.path.isEmpty)) = db.nodes := by
    refine List.filter_eq_self.mpr ?_
    intro a ha
    have := hb a ha
    simp [this]
  rw [hfull]

theorem treeTruncatedAt_self (db : TreeDB) {C : Nat} (hwf : TreeWF db)
    (hub : ∀ p ∈ db.nodes, p.1.version ≤ C) : treeTruncatedAt db C = db := by
  obtain ⟨hvb, hs1, hs2⟩ := hwf
  unfold treeTruncatedAt
  have hstale : ∀ (l : List ((Nat × Nat) × Nat)),
      (∀ p ∈ l, p.1.1 ∈ db.nodes.map (fun q => q.1.version)) →
      l.filter (fun p => decide (p.1.1 ≤ C)) = l := by
    intro l hcoup
    refine List.filter_eq_self.mpr ?_
    intro a ha
    obtain ⟨p, hp, hpv⟩ := List.mem_map.mp (hcoup a ha)
    have := hub p hp
    simp only [decide_eq_true_eq]
    omega
  apply TreeDB.ext
  · exact List.filter_eq_self.mpr fun a ha => by
      simp only [decide_eq_true_eq]; exact hub a ha
  · exact hstale db.staleNodeIndex hs1
  · exact hstale db.staleNodeIndexCrossEpoch hs2

theorem treeBatch_truncated (db : TreeDB) (hwf : TreeWF db) {b m : Nat}
    (hub : ∀ p ∈ db.nodes, p.1.version ≤ b → p.1.version ≤ m)
    (hm1 : 1 ≤ m) (hmb : m ≤ b) :
    truncateStateMerkleBatch (treeTruncatedAt db b) m
      = some (treeTruncatedAt db (m - 1)) := by
  obtain ⟨hvb, hs1, hs2⟩ := hwf
  have hstep : ∀ (l : List ((Nat × Nat) × Nat)),
      (∀ p ∈ l, p.1.1 ∈ db.nodes.map (fun q => q.1.version)) →
      deleteStaleNodeIndexAtVersion (l.filter (fun p => decide (p.1.1 ≤ b))) m
        = some (l.filter (fun p => decide (p.1.1 ≤ m - 1))) := by
    intro l hcoup
    unfold deleteStaleNodeIndexAtVersion
    have hg : ((l.filter (fun p => decide (p.1.1 ≤ b))).filter
        (fun p => decide (m ≤ p.1.1))).all (fun p => decide (p.1.1 = m)) = true := by
      refine List.all_eq_true.mpr ?_
      intro x hx
      have hx2 := List.mem_filter.mp hx
      have hx3 := List.mem_filter.mp hx2.1
      have hxb : x.1.1 ≤ b := by
        have := hx3.2
        simp only [decide_eq_true_eq] at this
        exact this
      have hxm : m ≤ x.1.1 := by
        have := hx2.2
        simp only [decide_eq_true_eq] at this
        exact this
      obtain ⟨p, hp, hpv⟩ := List.mem_map.mp (hcoup x hx3.1)
      have h6 : p.1.version ≤ b := by omega
      have h7 := hub p hp h6
      simp only [decide_eq_true_eq]
      omega
    rw [hg]
    simp only [if_true]
    exact congrArg some (filter_tail_collapse l (fun p => p.1.1) hm1 (by omega))
  simp only [truncateStateMerkleBatch, treeTruncatedAt, hstep db.staleNodeIndex hs1,
    hstep db.staleNodeIndexCrossEpoch hs2]
  refine congrArg some ?_
  apply TreeDB.ext
  · rw [List.filter_filter]
    refine List.filter_congr ?_
    intro x _
    simp only [← Bool.decide_and]
    rw [decide_eq_decide]
    omega
  · rfl
  · rfl

theorem treeLoop_truncated (db : TreeDB) (hwf : TreeWF db) {t : Nat}
    (hmem : t ∈ db.nodes.map (fun p => p.1.version)) :
    ∀ fuel b, t ≤ b → (treeTruncatedAt db b).nodes.length < fuel →
      ∃ n, truncateStateMerkleDbLoop fuel (treeTruncatedAt db b) t
          = some (treeTruncatedAt db t, n) ∧ n ≤ b - t := by
  intro fuel
  induction fuel with
  | zero =>
    intro b htb hlen
    exact absurd hlen (by omega)
  | succ fuel ih =>
    intro b htb hlen
    have hvb' : ∀ p ∈ (treeTruncatedAt db b).nodes, p.1.version < u64Max := by
      intro p hp
      exact hwf.1 p (List.mem_filter.mp hp).1
    have hvers : (treeTruncatedAt db b).nodes.map (fun p => p.1.version)
        = (db.nodes.map (fun p => p.1.version)).filter (fun v => decide (v ≤ b)) :=
      map_version_filter db.nodes (fun v => decide (v ≤ b))
    have htmem : t ∈ (db.nodes.map (fun p => p.1.version)).filter
        (fun v => decide (v ≤ b)) := by
      refine List.mem_filter.mpr ⟨hmem, ?_⟩
      simp only [decide_eq_true_eq]
      omega
    rw [truncateStateMerkleDbLoop, getCurrentTree_eq_listMax hvb', hvers]
    rcases hlm : listMax ((db.nodes.map (fun p => p.1.version)).filter
        (fun v => decide (v ≤ b))) with _ | m
    · rw [listMax_eq_none hlm] at htmem
      exact absurd htmem (List.not_mem_nil t)
    · simp only [hlm]
      have hm_mem := listMax_mem hlm
      have hm_ub := listMax_le hlm
      have htm : t ≤ m := hm_ub t htmem
      have hmb : m ≤ b := by
        have := (List.mem_filter.mp hm_mem).2
        simp only [decide_eq_true_eq] at this
        exact this
      have hub : ∀ p ∈ db.nodes, p.1.version ≤ b → p.1.version ≤ m := by
        intro p hp hpb
        refine hm_ub p.1.version ?_
        refine List.mem_filter.mpr ⟨List.mem_map_of_mem _ hp, ?_⟩
        simp only [decide_eq_true_eq]
        exact hpb
      by_cases hmt : m = t
      · subst hmt
        rw [if_neg (by omega), if_pos rfl]
        refine ⟨0, ?_, by omega⟩
        refine congrArg some ?_
        refine congrArg (fun d => (d, 0)) ?_
        unfold treeTruncatedAt
        apply TreeDB.ext
        · refine List.filter_congr ?_
          intro x hx
          rw [decide_eq_decide]
          constructor
          · intro hxb
            exact hub x hx hxb
          · intro hxm
            omega
        · refine List.filter_congr ?_
          intro x hx
          rw [decide_eq_decide]
          obtain ⟨p, hp, hpv⟩ := List.mem_map.mp (hwf.2.1 x hx)
          constructor
          · intro hxb
            have := hub p hp (by omega)
            omega
          · intro hxm
            omega
        · refine List.filter_congr ?_
          intro x hx
          rw [decide_eq_decide]
          obtain ⟨p, hp, hpv⟩ := List.mem_map.mp (hwf.2.2 x hx)
          constructor
          · intro hxb
            have := hub p hp (by omega)
            omega
          · intro hxm
            omega
      · have htm' : t < m := by omega
        have hbatch := treeBatch_truncated db hwf hub (by omega) hmb
        rw [if_neg (by omega), if_neg hmt]
        simp only [hbatch]
        have hlt : (treeTruncatedAt db (m - 1)).nodes.length
            < (treeTruncatedAt db b).nodes.length := by
          show (db.nodes.filter (fun p => decide (p.1.version ≤ m - 1))).length
            < (db.nodes.filter (fun p => decide (p.1.version ≤ b))).length
          have heq : db.nodes.filter (fun p => decide (p.1.version ≤ m - 1))
              = (db.nodes.filter (fun p => decide (p.1.version ≤ b))).filter
                  (fun p => decide (p.1.version ≤ m - 1)) := by
            rw [List.filter_filter]
            refine List.filter_congr ?_
            intro x _
            simp only [← Bool.decide_and]
            rw [decide_eq_decide]
            omega
          rw [heq]
          refine List.length_filter_lt_length_iff_exists.mpr ?_
          obtain ⟨p, hp, hpv⟩ := List.mem_map.mp (List.mem_filter.mp hm_mem).1
          refine ⟨p, ?_, ?_⟩
          · refine List.mem_filter.mpr ⟨hp, ?_⟩
            simp only [decide_eq_true_eq]
            omega
          · simp only [decide_eq_true_eq]
            omega
        obtain ⟨n, hrec, hn⟩ := ih (m - 1) (by omega) (by omega)
        simp only [hrec]
        exact ⟨n + 1, rfl, by omega⟩

theorem truncateStateMerkleDb_truncated (db : TreeDB) (hwf : TreeWF db) {t C : Nat}
    (hmem : t ∈ db.nodes.map (fun p => p.1.version))
    (hC : getCurrentVersionInStateMerkleDb db = some C) :
    truncateStateMerkleDb db t = some (treeTruncatedAt db t)
      ∧ ∃ n, truncateStateMerkleDbSteps db t = some n ∧ n ≤ C - t := by
  have hCmax := getCurrentTree_eq_listMax hwf.1
  rw [hCmax] at hC
  have hub : ∀ p ∈ db.nodes, p.1.version ≤ C := by
    intro p hp
    exact listMax_le hC p.1.version (List.mem_map_of_mem _ hp)
  have htC : t ≤ C := listMax_le hC t hmem
  have hself := treeTruncatedAt_self db hwf hub
  have hlen : (treeTruncatedAt db C).nodes.length < db.nodes.length + 1 := by
    rw [hself]
    omega
  obtain ⟨n, hloop, hn⟩ := treeLoop_truncated db hwf hmem (db.nodes.length + 1) C htC hlen
  rw [hself] at hloop
  refine ⟨?_, n, ?_, hn⟩
  · unfold truncateStateMerkleDb
    rw [hloop]
    rfl
  · unfold truncateStateMerkleDbSteps
    rw [hloop]
    rfl

theorem treeBatch_nodes {st mid : TreeDB} {cv : Nat}
    (h : truncateStateMerkleBatch st cv = some mid) :
    mid.nodes = st.nodes.filter (fun p => decide (p.1.version < cv)) := by
  unfold truncateStateMerkleBatch at h
  rcases h1 : deleteStaleNodeIndexAtVersion st.staleNodeIndex cv with _ | a <;>
    rw [h1] at h
  · exact absurd h (by simp)
  · rcases h2 : deleteStaleNodeIndexAtVersion st.staleNodeIndexCrossEpoch cv with _ | b <;>
      rw [h2] at h
    · exact absurd h (by simp)
    · injection h with h
      rw [← h]

theorem treeLoop_post : ∀ fuel (st res : TreeDB) t n,
    truncateStateMerkleDbLoop fuel st t = some (res, n) →
    getCurrentVersionInStateMerkleDb res = some t ∧
    (∀ p ∈ st.nodes, p.1.version ≤ t → p ∈ res.nodes) ∧
    (∀ p ∈ res.nodes, p ∈ st.nodes) := by
  intro fuel
  induction fuel with
  | zero =>
    intro st res t n h
    exact absurd h (by rw [truncateStateMerkleDbLoop]; simp)
  | succ fuel ih =>
    intro st res t n h
    rw [truncateStateMerkleDbLoop] at h
    rcases hcv : getCurrentVersionInStateMerkleDb st with _ | cv <;> simp only [hcv] at h
    · exact absurd h (by simp)
    · by_cases hlt : cv < t
      · rw [if_pos hlt] at h
        exact absurd h (by simp)
      · rw [if_neg hlt] at h
        by_cases heq : cv = t
        · rw [if_pos heq] at h
          injection h with h
          injection h with h1 h2
          subst h1
          exact ⟨by rw [hcv, heq], fun p hp _ => hp, fun p hp => hp⟩
        · rw [if_neg heq] at h
          rcases hb : truncateStateMerkleBatch st cv with _ | mid <;> simp only [hb] at h
          · exact absurd h (by simp)
          · rcases hl : truncateStateMerkleDbLoop fuel mid t with _ | r <;>
              simp only [hl] at h
            · exact absurd h (by simp)
            · injection h with h
              injection h with h1 h2
              obtain ⟨ha, hs, hsub⟩ := ih mid r.1 t r.2 (by rw [hl])
              have hmid := treeBatch_nodes hb
              refine ⟨by rw [← h1]; exact ha, ?_, ?_⟩
              · intro p hp hpt
                rw [← h1]
                refine hs p ?_ hpt
                rw [hmid]
                refine List.mem_filter.mpr ⟨hp, ?_⟩
                simp only [decide_eq_true_eq]
                omega
              · intro p hp
                rw [← h1] at hp
                have := hsub p hp
                rw [hmid] at this
                exact (List.mem_filter.mp this).1

theorem findClosest_le {db : TreeDB} {v r : Nat}
    (h : findClosestNodeVersionAtOrBefore db v = some r) : r ≤ v := by
  unfold findClosestNodeVersionAtOrBefore at h
  have hmem := listMax_mem h
  obtain ⟨p, hp, hpv⟩ := List.mem_map.mp hmem
  have hpred := (List.mem_filter.mp hp).2
  simp only [Bool.or_eq_true, Bool.and_eq_true, decide_eq_true_eq] at hpred
  rcases hpred with h1 | ⟨h1, -⟩ <;> omega

theorem findTreeRoot_sound {ldb : LedgerDB} {tdb : TreeDB} {v r : Nat}
    (h : findTreeRootAtOrBefore ldb tdb v = some r) :
    rootExistAtVersion tdb r = true ∧ r ≤ v := by
  unfold findTreeRootAtOrBefore at h
  rcases hc : findClosestNodeVersionAtOrBefore tdb v with _ | cv <;> simp only [hc] at h
  · exact absurd h (by simp)
  · by_cases hr : rootExistAtVersion tdb cv
    · rw [if_pos hr] at h
      injection h with h
      subst h
      exact ⟨hr, findClosest_le hc⟩
    · rw [if_neg hr] at h
      rcases he : listMax ((ldb.epochByVersion.filter
          (fun p => decide (p.1 ≤ v))).map Prod.fst) with _ | ev <;> simp only [he] at h
      · exact absurd h (by simp)
      · by_cases hr2 : rootExistAtVersion tdb ev
        · rw [if_pos hr2] at h
          injection h with h
          subst h
          refine ⟨hr2, ?_⟩
          have hmem := listMax_mem he
          obtain ⟨p, hp, hpv⟩ := List.mem_map.mp hmem
          have := (List.mem_filter.mp hp).2
          simp only [decide_eq_true_eq] at this
          omega
        · rw [if_neg hr2] at h
          exact absurd h (by simp)

theorem findClosest_at_current {db : TreeDB} {T : Nat}
    (hub : ∀ p ∈ db.nodes, (decide (p.1.version < T) ||
      (decide (p.1.version = T) && p.1.path.isEmpty)) = true → p.1.version ≤ T)
    (hroot : rootExistAtVersion db T = true) :
    findClosestNodeVersionAtOrBefore db T = some T := by
  unfold findClosestNodeVersionAtOrBefore
  obtain ⟨p, hp, hpr⟩ := List.any_eq_true.mp hroot
  have hpr' := hpr
  simp only [Bool.and_eq_true, decide_eq_true_eq] at hpr'
  refine listMax_eq_some ?_ ?_
  · refine List.mem_map.mpr ⟨p, ?_, hpr'.1⟩
    refine List.mem_filter.mpr ⟨hp, ?_⟩
    simp only [Bool.or_eq_true, Bool.and_eq_true, decide_eq_true_eq]
    exact Or.inr ⟨hpr'.1, hpr'.2⟩
  · intro x hx
    obtain ⟨q, hq, hqv⟩ := List.mem_map.mp hx
    have := hub q (List.mem_filter.mp hq).1 (List.mem_filter.mp hq).2
    omega

theorem catchUp_post {ldb : LedgerDB} {tdb : TreeDB} {T tv : Nat}
    (hl : getCurrentVersionInLedgerDb ldb = some T)
    (ht : getCurrentVersionInStateMerkleDb tdb = some tv)
    (htv : tv < T) (hTmax : T < u64Max) :
    getCurrentVersionInStateMerkleDb (catchUpStateMerkleDb ldb tdb) = some T ∧
    rootExistAtVersion (catchUpStateMerkleDb ldb tdb) T = true := by
  have hcu : catchUpStateMerkleDb ldb tdb
      = { tdb with nodes := tdb.nodes ++
          (List.range (T - tv)).map (fun i => (⟨tv + 1 + i, []⟩, 0)) } := by
    unfold catchUpStateMerkleDb
    rw [hl, ht]
  have hrootmem : (⟨⟨T, []⟩, 0⟩ : NodeKey × Nat) ∈ tdb.nodes ++
      (List.range (T - tv)).map (fun i => (⟨tv + 1 + i, []⟩, 0)) := by
    refine List.mem_append.mpr (Or.inr ?_)
    refine List.mem_map.mpr ⟨T - tv - 1, ?_, ?_⟩
    · refine List.mem_range.mpr ?_
      omega
    · have : tv + 1 + (T - tv - 1) = T := by omega
      rw [this]
  have hroot : rootExistAtVersion (catchUpStateMerkleDb ldb tdb) T = true := by
    rw [hcu]
    refine List.any_eq_true.mpr ⟨⟨⟨T, []⟩, 0⟩, hrootmem, ?_⟩
    simp
  refine ⟨?_, hroot⟩
  rw [hcu]
  unfold getCurrentVersionInStateMerkleDb findClosestNodeVersionAtOrBefore at ht ⊢
  refine listMax_eq_some ?_ ?_
  · refine List.mem_map.mpr ⟨⟨⟨T, []⟩, 0⟩, ?_, rfl⟩
    refine List.mem_filter.mpr ⟨hrootmem, ?_⟩
    simp only [Bool.or_eq_true, decide_eq_true_eq]
    exact Or.inl hTmax
  · intro x hx
    obtain ⟨q, hq, hqv⟩ := List.mem_map.mp hx
    obtain ⟨hqmem, hqpred⟩ := List.mem_filter.mp hq
    rcases List.mem_append.mp hqmem with hq1 | hq2
    · have hxtv : x ≤ tv := by
        refine listMax_le ht x ?_
        refine List.mem_map.mpr ⟨q, ?_, hqv⟩
        exact List.mem_filter.mpr ⟨hq1, hqpred⟩
      omega
    · obtain ⟨i, hi, hie⟩ := List.mem_map.mp hq2
      have hir := List.mem_range.mp hi
      have : q.1.version = tv + 1 + i := by rw [← hie]
      omega

theorem currentTree_truncated (db : TreeDB) {t : Nat}
    (hb : ∀ p ∈ db.nodes, p.1.version < u64Max)
    (hmem : t ∈ db.nodes.map (fun p => p.1.version)) :
    getCurrentVersionInStateMerkleDb (treeTruncatedAt db t) = some t := by
  have hb' : ∀ p ∈ (treeTruncatedAt db t).nodes, p.1.version < u64Max :=
    fun p hp => hb p (List.mem_filter.mp hp).1
  have hvers : (treeTruncatedAt db t).nodes.map (fun p => p.1.version)
      = (db.nodes.map (fun p => p.1.version)).filter (fun v => decide (v ≤ t)) :=
    map_version_filter db.nodes (fun v => decide (v ≤ t))
  rw [getCurrentTree_eq_listMax hb', hvers]
  refine listMax_eq_some ?_ ?_
  · refine List.mem_filter.mpr ⟨hmem, ?_⟩
    simp
  · intro x hx
    have := (List.mem_filter.mp hx).2
    simp only [decide_eq_true_eq] at this
    exact this

theorem treeNodesBelowCurrent_of_bound {db : TreeDB}
    (hb : ∀ p ∈ db.nodes, p.1.version < u64Max) : treeNodesBelowCurrent db = true := by
  unfold treeNodesBelowCurrent
  rw [getCurrentTree_eq_listMax hb]
  rcases hlm : listMax (db.nodes.map (fun p => p.1.version)) with _ | v <;>
    simp only [hlm]
  · have hnil : db.nodes = [] := List.map_eq_nil_iff.mp (listMax_eq_none hlm)
    rw [hnil]
    rfl
  · refine List.all_eq_true.mpr ?_
    intro p hp
    simp only [decide_eq_true_eq]
    exact listMax_le hlm _ (List.mem_map_of_mem _ hp)

theorem accumulatorBelowBoundary_truncated (db : LedgerDB) {cv w : Nat}
    (hwf : LedgerWF db cv) (hw : w ≤ cv) :
    accumulatorBelowBoundary (ledgerTruncatedAt db w) = true := by
  have h12 : 2 * (cv + 1) < u64Mod := hwf.2.2.2.2.2.2.2.2.2.2.2
  unfold accumulatorBelowBoundary
  rw [getCurrentVersion_truncated db hwf hw]
  refine List.all_eq_true.mpr ?_
  intro p hp
  have hlt := (List.mem_filter.mp hp).2
  simp only [decide_eq_true_eq] at hlt ⊢
  unfold boundaryPosition
  rw [numFrozen_eq_pure (show 2 * (w + 1) < u64Mod by omega)]
  exact hlt

/-! ## Concrete stores used by the witnesses and counterexamples -/

/-- A well-formed ledger store at current version 1: per-version tables at
versions 0 and 1, one epoch starting at 0, and the three accumulator nodes
frozen by 2 leaves. -/
def exLedger1 : LedgerDB :=
  { txnInfo := [(0, 0), (1, 0)]
    txn := [(0, 0), (1, 0)]
    versionData := [(0, 0), (1, 0)]
    writeSet := [(0, 0), (1, 0)]
    epochByVersion := [(0, 0)]
    ledgerInfo := [(0, 0)]
    accumulator := [(0, 0), (1, 0), (2, 0)]
    staleStateValueIndex := []
    stateValue := []
    txnByAccount := []
    txnByHash := []
    events := [] }

/-- A ledger store whose transaction-info table misses every version below
the current one — consistent enough for one truncation run to succeed, but
not well formed. -/
def exLedgerX : LedgerDB :=
  { txnInfo := [(1, 0)]
    txn := [(0, 0), (1, 0)]
    versionData := []
    writeSet := []
    epochByVersion := []
    ledgerInfo := []
    accumulator := [(0, 0), (1, 0), (2, 0)]
    staleStateValueIndex := []
    stateValue := []
    txnByAccount := []
    txnByHash := []
    events := [] }

/-- A ledger store with every table empty (only its epoch table matters to
the tree-root search). -/
def exLedgerEmpty : LedgerDB :=
  { txnInfo := []
    txn := []
    versionData := []
    writeSet := []
    epochByVersion := []
    ledgerInfo := []
    accumulator := []
    staleStateValueIndex := []
    stateValue := []
    txnByAccount := []
    txnByHash := []
    events := [] }

/-- A ledger store whose only transaction info is at version 0. -/
def exLedger0 : LedgerDB :=
  { exLedgerEmpty with txnInfo := [(0, 0)] }

/-- Tree store with roots at versions 0 and 1. -/
def exTree01 : TreeDB :=
  { nodes := [(⟨0, []⟩, 0), (⟨1, []⟩, 0)]
    staleNodeIndex := []
    staleNodeIndexCrossEpoch := [] }

/-- Tree store with a single root at version 1 and nothing at the target. -/
def exTreeA : TreeDB :=
  { nodes := [(⟨1, []⟩, 0)]
    staleNodeIndex := []
    staleNodeIndexCrossEpoch := [] }

/-- Tree store with roots at 0 and 1 and a stale-node record at a version
that never wrote nodes. -/
def exTreeB : TreeDB :=
  { nodes := [(⟨0, []⟩, 0), (⟨1, []⟩, 0)]
    staleNodeIndex := [((2, 7), 0)]
    staleNodeIndexCrossEpoch := [] }

/-- Tree store with roots at 0 and 2 and a stale-node record at 2. -/
def exTreeC : TreeDB :=
  { nodes := [(⟨0, []⟩, 0), (⟨2, []⟩, 0)]
    staleNodeIndex := [((2, 5), 0)]
    staleNodeIndexCrossEpoch := [] }

/-- Tree store with a root at 0 and a non-root node at 5. -/
def exTreeE : TreeDB :=
  { nodes := [(⟨0, []⟩, 0), (⟨5, [3]⟩, 0)]
    staleNodeIndex := []
    staleNodeIndexCrossEpoch := [] }

/-- Tree store with roots at 0, 50 and 100. -/
def exTreeRoots : TreeDB :=
  { nodes := [(⟨0, []⟩, 0), (⟨50, []⟩, 0), (⟨100, []⟩, 0)]
    staleNodeIndex := []
    staleNodeIndexCrossEpoch := [] }

/-- Tree store with a single root at version 1 (ahead of `exLedger0`). -/
def exTreeAhead : TreeDB :=
  { nodes := [(⟨1, []⟩, 0)]
    staleNodeIndex := []
    staleNodeIndexCrossEpoch := [] }

/-! ## The claims -/

/-- C7: `num_frozen_nodes_in_accumulator` is the pure function
`2 * n - popcount n` on every 64-bit leaf count whose doubling does not
overflow (the integer-overflow guard the claim carves out), and it takes
the hand-computed values 1, 3, 4 and 7 at n = 1, 2, 3 and 4. -/
theorem num_frozen_nodes_spec (n : Nat) (h : 2 * n < u64Mod) :
    numFrozenNodesInAccumulator n = 2 * n - countOnes n ∧
    numFrozenNodesInAccumulator 1 = 1 ∧
    numFrozenNodesInAccumulator 2 = 3 ∧
    numFrozenNodesInAccumulator 3 = 4 ∧
    numFrozenNodesInAccumulator 4 = 7 :=
  ⟨numFrozen_eq_pure h, by decide, by decide, by decide, by decide⟩

theorem num_frozen_nodes_spec_witness :
    2 * 5 < u64Mod ∧
    (numFrozenNodesInAccumulator 5 = 2 * 5 - countOnes 5 ∧
     numFrozenNodesInAccumulator 1 = 1 ∧
     numFrozenNodesInAccumulator 2 = 3 ∧
     numFrozenNodesInAccumulator 3 = 4 ∧
     numFrozenNodesInAccumulator 4 = 7) :=
  ⟨by decide, num_frozen_nodes_spec 5 (by decide)⟩

/-- C4: on an accumulator table holding exactly the postorder indices
below the frozen-node count of `end_version` leaves, the batch's
accumulator shrink succeeds, deletes exactly the nodes at or above the
boundary position of `start_version`, and the number of deletions equals
the difference of the two frozen-node counts; on any table whose last
position fails the precondition check, it dies. -/
theorem truncate_transaction_accumulator_spec (acc : List (Nat × Nat)) (s e : Nat)
    (hperm : (acc.map Prod.fst).Perm (List.range (frozenPure e)))
    (hs : 1 ≤ s) (hse : s ≤ e) (he : 2 * e < u64Mod)
    (acc2 : List (Nat × Nat)) (m : Nat)
    (hm : listMax (acc2.map Prod.fst) = some m)
    (hne : m + 1 ≠ numFrozenNodesInAccumulator e) :
    truncateTransactionAccumulator acc s e
        = some (acc.filter (fun p => !decide (numFrozenNodesInAccumulator s ≤ p.1))) ∧
    (acc.filter (fun p => decide (numFrozenNodesInAccumulator s ≤ p.1))).length
        = frozenPure e - frozenPure s ∧
    truncateTransactionAccumulator acc2 s e = none := by
  have hfe : numFrozenNodesInAccumulator e = frozenPure e := numFrozen_eq_pure he
  have hfs : numFrozenNodesInAccumulator s = frozenPure s := numFrozen_eq_pure (by omega)
  have hmono := frozenPure_mono hse
  have hfpos : 1 ≤ frozenPure e := Nat.le_trans (by omega) (frozenPure_self_le e)
  have hbound : frozenPure e < u64Mod :=
    Nat.lt_of_le_of_lt (by unfold frozenPure; omega) he
  have hlast : listMax (acc.map Prod.fst) = some (frozenPure e - 1) :=
    listMax_perm_range hperm hfpos
  have hlen : (acc.filter (fun p => decide (numFrozenNodesInAccumulator s ≤ p.1))).length
      = frozenPure e - frozenPure s := by
    rw [hfs, length_filter_fst_ge]
    rw [(hperm.filter (fun k => decide (frozenPure s ≤ k))).length_eq]
    exact range_filter_ge_length hmono
  refine ⟨?_, hlen, ?_⟩
  · simp only [truncateTransactionAccumulator, hlast]
    rw [if_pos (show frozenPure e - 1 + 1 = numFrozenNodesInAccumulator e by omega)]
    rw [hlen]
    have hg2 : wsub (wsub (numFrozenNodesInAccumulator e) (numFrozenNodesInAccumulator s))
        (frozenPure e - frozenPure s) = 0 := by
      rw [hfe, hfs, wsub_of_le hmono hbound]
      exact wsub_self (by omega)
    rw [if_pos hg2]
  · simp only [truncateTransactionAccumulator, hm]
    rw [if_neg hne]

theorem truncate_transaction_accumulator_spec_witness :
    (([(0, 0), (1, 0), (2, 0), (3, 0)] : List (Nat × Nat)).map Prod.fst).Perm
        (List.range (frozenPure 3)) ∧
    (truncateTransactionAccumulator [(0, 0), (1, 0), (2, 0), (3, 0)] 2 3
        = some (([(0, 0), (1, 0), (2, 0), (3, 0)] : List (Nat × Nat)).filter
            (fun p => !decide (numFrozenNodesInAccumulator 2 ≤ p.1))) ∧
     (([(0, 0), (1, 0), (2, 0), (3, 0)] : List (Nat × Nat)).filter
         (fun p => decide (numFrozenNodesInAccumulator 2 ≤ p.1))).length
        = frozenPure 3 - frozenPure 2 ∧
     truncateTransactionAccumulator [(0, 0)] 2 3 = none) :=
  ⟨by decide, truncate_transaction_accumulator_spec
    [(0, 0), (1, 0), (2, 0), (3, 0)] 2 3 (by decide) (by decide) (by decide) (by decide)
    [(0, 0)] 0 (by decide) (by decide)⟩

/-- C1 counterexample: on a well-formed ledger store at current version 1
with target 0, batch size 3 satisfies the claim's `batch_size >= 1`, but
`current_version - batch_size as u64 + 1` wraps, the accumulator deletion
count check fails, and the run panics instead of truncating to the target
with the claimed `max(end_version - batch_size, target_version + 1)` start. -/
theorem truncate_ledger_db_counterexample :
    LedgerWF exLedger1 1 ∧ (0 : Nat) ≤ 1 ∧ (1 : Nat) ≤ 3 ∧
    truncateLedgerDb exLedger1 1 0 3 = none := by decide

/-- C1 (amended): for a well-formed ledger store at current version `cv`,
a target at most `cv`, and a batch size at least 1 whose start-version
computation never wraps (`B ≤ t + ((cv - t - 1) mod B) + 2` whenever
`t < cv`), the ledger truncation processes descending contiguous batches
whose start version is `max(end_version - batch_size, target_version + 1)`,
deletes exactly the data of versions in `(t, cv]` from every table, and
leaves `current_ledger_version() = t`. -/
theorem truncate_ledger_db_correct (db : LedgerDB) (cv t B : Nat)
    (hwf : LedgerWF db cv) (ht : t ≤ cv) (hB : 1 ≤ B)
    (hnu : t < cv → B ≤ t + (cv - t - 1) % B + 2) :
    truncateLedgerDbLoop (cv - t) db cv t B
        = some (ledgerTruncatedAt db t, ledgerBatchRanges (cv - t) cv t B) ∧
    truncateLedgerDb db cv t B = some (ledgerTruncatedAt db t) ∧
    (ledgerBatchRanges (cv - t) cv t B).all
        (fun r => decide (r.1 = max (r.2 - B) (t + 1))) = true ∧
    getCurrentVersionInLedgerDb (ledgerTruncatedAt db t) = some t := by
  have hself := ledgerTruncatedAt_self db hwf
  have hloop := truncateLedgerDbLoop_truncated db hwf (cv - t) cv t B ht
    (Nat.le_refl cv) hB hnu (Nat.le_refl _)
  rw [hself] at hloop
  refine ⟨hloop, ?_, ledgerBatchRanges_all_max t B (cv - t) cv,
    getCurrentVersion_truncated db hwf ht⟩
  unfold truncateLedgerDb
  rw [hloop]
  rfl

theorem truncate_ledger_db_correct_witness :
    (LedgerWF exLedger1 1 ∧ (0 : Nat) ≤ 1 ∧ (1 : Nat) ≤ 1 ∧
      (0 < 1 → 1 ≤ 0 + (1 - 0 - 1) % 1 + 2)) ∧
    (truncateLedgerDbLoop (1 - 0) exLedger1 1 0 1
        = some (ledgerTruncatedAt exLedger1 0, ledgerBatchRanges (1 - 0) 1 0 1) ∧
     truncateLedgerDb exLedger1 1 0 1 = some (ledgerTruncatedAt exLedger1 0) ∧
     (ledgerBatchRanges (1 - 0) 1 0 1).all
        (fun r => decide (r.1 = max (r.2 - 1) (0 + 1))) = true ∧
     getCurrentVersionInLedgerDb (ledgerTruncatedAt exLedger1 0) = some 0) :=
  ⟨by decide, truncate_ledger_db_correct exLedger1 1 0 1 (by decide) (by decide)
    (by decide) (by decide)⟩

/-- C8 counterexample: from the same well-formed store, batch size 1
truncates 1 down to 0 while batch size 3 wraps and dies, so different
batch sizes do not generally yield identical final contents. -/
theorem batch_size_counterexample :
    LedgerWF exLedger1 1 ∧ (0 : Nat) < 1 ∧
    truncateLedgerDb exLedger1 1 0 1 ≠ truncateLedgerDb exLedger1 1 0 3 := by decide

/-- C8 (amended): for a well-formed store and any two batch sizes whose
start-version computations never wrap, ledger truncations to the same
target produce identical final store contents — both equal the canonical
truncated store. -/
theorem truncate_ledger_db_batch_size_independent (db : LedgerDB) (cv t B1 B2 : Nat)
    (hwf : LedgerWF db cv) (ht : t ≤ cv) (hB1 : 1 ≤ B1) (hB2 : 1 ≤ B2)
    (hnu1 : t < cv → B1 ≤ t + (cv - t - 1) % B1 + 2)
    (hnu2 : t < cv → B2 ≤ t + (cv - t - 1) % B2 + 2) :
    truncateLedgerDb db cv t B1 = truncateLedgerDb db cv t B2 ∧
    truncateLedgerDb db cv t B1 = some (ledgerTruncatedAt db t) := by
  have hself := ledgerTruncatedAt_self db hwf
  have hloop1 := truncateLedgerDbLoop_truncated db hwf (cv - t) cv t B1 ht
    (Nat.le_refl cv) hB1 hnu1 (Nat.le_refl _)
  have hloop2 := truncateLedgerDbLoop_truncated db hwf (cv - t) cv t B2 ht
    (Nat.le_refl cv) hB2 hnu2 (Nat.le_refl _)
  rw [hself] at hloop1 hloop2
  have h1 : truncateLedgerDb db cv t B1 = some (ledgerTruncatedAt db t) := by
    unfold truncateLedgerDb
    rw [hloop1]
    rfl
  have h2 : truncateLedgerDb db cv t B2 = some (ledgerTruncatedAt db t) := by
    unfold truncateLedgerDb
    rw [hloop2]
    rfl
  exact ⟨h1.trans h2.symm, h1⟩

theorem truncate_ledger_db_batch_size_independent_witness :
    (LedgerWF exLedger1 1 ∧ (0 : Nat) ≤ 1 ∧ (1 : Nat) ≤ 1 ∧ (1 : Nat) ≤ 2 ∧
      (0 < 1 → 1 ≤ 0 + (1 - 0 - 1) % 1 + 2) ∧ (0 < 1 → 2 ≤ 0 + (1 - 0 - 1) % 2 + 2)) ∧
    (truncateLedgerDb exLedger1 1 0 1 = truncateLedgerDb exLedger1 1 0 2 ∧
     truncateLedgerDb exLedger1 1 0 1 = some (ledgerTruncatedAt exLedger1 0)) :=
  ⟨by decide, truncate_ledger_db_batch_size_independent exLedger1 1 0 1 2 (by decide)
    (by decide) (by decide) (by decide) (by decide) (by decide)⟩

/-- C2 counterexample: two stores whose current tree version is at or
above the target, on which the truncation nevertheless dies — one has no
node at the target version (the re-read of the current version panics
after the last deletion), the other has a stale-node record at a version
that never wrote nodes (the per-version stale assertion fails). -/
theorem truncate_state_merkle_db_counterexample :
    getCurrentVersionInStateMerkleDb exTreeA = some 1 ∧ (0 : Nat) ≤ 1 ∧
    truncateStateMerkleDb exTreeA 0 = none ∧
    getCurrentVersionInStateMerkleDb exTreeB = some 1 ∧
    truncateStateMerkleDb exTreeB 0 = none := by decide

/-- C2 (amended): on a well-formed tree store (every stale-node record
sits at a version that wrote nodes) containing at least one node at
exactly the target version, the tree truncation terminates, deletes every
node and staleness record above the target, and leaves
`current_tree_version() = target`. -/
theorem truncate_state_merkle_db_correct (db : TreeDB) (t : Nat)
    (hwf : TreeWF db) (hmem : t ∈ db.nodes.map (fun p => p.1.version)) :
    truncateStateMerkleDb db t = some (treeTruncatedAt db t) ∧
    getCurrentVersionInStateMerkleDb (treeTruncatedAt db t) = some t := by
  rcases hC : getCurrentVersionInStateMerkleDb db with _ | C
  · rw [getCurrentTree_eq_listMax hwf.1] at hC
    rw [List.map_eq_nil_iff.mp (listMax_eq_none hC)] at hmem
    exact absurd hmem (List.not_mem_nil t)
  · exact ⟨(truncateStateMerkleDb_truncated db hwf hmem hC).1,
      currentTree_truncated db hwf.1 hmem⟩

theorem truncate_state_merkle_db_correct_witness :
    (TreeWF exTreeC ∧ (0 : Nat) ∈ exTreeC.nodes.map (fun p => p.1.version)) ∧
    (truncateStateMerkleDb exTreeC 0 = some (treeTruncatedAt exTreeC 0) ∧
     getCurrentVersionInStateMerkleDb (treeTruncatedAt exTreeC 0) = some 0) :=
  ⟨by decide, truncate_state_merkle_db_correct exTreeC 0 (by decide) (by decide)⟩

/-- C6 counterexample: with tree nodes only at versions 0 and 2 and
target 0, the loop terminates after a single iteration, not
`current_tree_version() - target_version = 2` iterations: one iteration
can drop the maximum tree version by more than one. -/
theorem truncate_state_merkle_db_steps_counterexample :
    TreeWF exTreeC ∧ getCurrentVersionInStateMerkleDb exTreeC = some 2 ∧
    (0 : Nat) ∈ exTreeC.nodes.map (fun p => p.1.version) ∧
    truncateStateMerkleDbSteps exTreeC 0 = some 1 ∧ (1 : Nat) ≠ 2 - 0 := by decide

/-- C6 (amended): each iteration strictly decreases the maximum tree
version (possibly by more than one when versions are sparse), so on a
well-formed store with a node at the target the loop terminates in at most
`current_tree_version() - target_version` batch iterations. -/
theorem truncate_state_merkle_db_steps_le (db : TreeDB) (t C n : Nat)
    (hwf : TreeWF db) (hmem : t ∈ db.nodes.map (fun p => p.1.version))
    (hC : getCurrentVersionInStateMerkleDb db = some C)
    (hn : truncateStateMerkleDbSteps db t = some n) :
    n ≤ C - t := by
  obtain ⟨-, m, hm, hle⟩ := truncateStateMerkleDb_truncated db hwf hmem hC
  rw [hn] at hm
  injection hm with hm
  omega

theorem truncate_state_merkle_db_steps_le_witness :
    (TreeWF exTreeC ∧ (0 : Nat) ∈ exTreeC.nodes.map (fun p => p.1.version) ∧
      getCurrentVersionInStateMerkleDb exTreeC = some 2 ∧
      truncateStateMerkleDbSteps exTreeC 0 = some 1) ∧
    (1 : Nat) ≤ 2 - 0 :=
  ⟨by decide, truncate_state_merkle_db_steps_le exTreeC 0 2 1 (by decide) (by decide)
    (by decide) (by decide)⟩

/-- C3 counterexample: a tree with a root at 0 and a rootless node at 5,
and a ledger with no epoch boundaries. The greatest version at or below 10
carrying a root is 0, yet the search reports not-found, because it only
tries the closest node version and the closest epoch boundary. -/
theorem find_tree_root_counterexample :
    rootExistAtVersion exTreeE 0 = true ∧ (0 : Nat) ≤ 10 ∧
    findTreeRootAtOrBefore exLedgerEmpty exTreeE 10 = none := by decide

/-- C3 (amended): in every branch, any version the search returns is at
most `v` and carries a root; when the closest node version at or before
`v` carries a root the search returns exactly it; when it does not, the
search returns the closest epoch-boundary version at or before `v` if a
root exists exactly there and not-found if not; and with no closest node
version, or no epoch boundary at or before `v`, it reports not-found —
so the search is not complete and may miss a root at a smaller version
(see the counterexample). -/
theorem find_tree_root_spec (ldb : LedgerDB) (tdb : TreeDB) (v : Nat) :
    (∀ r, findTreeRootAtOrBefore ldb tdb v = some r →
      rootExistAtVersion tdb r = true ∧ r ≤ v) ∧
    (∀ cv, findClosestNodeVersionAtOrBefore tdb v = some cv →
      rootExistAtVersion tdb cv = true →
      findTreeRootAtOrBefore ldb tdb v = some cv) ∧
    (∀ cv, findClosestNodeVersionAtOrBefore tdb v = some cv →
      rootExistAtVersion tdb cv = false →
      ∀ ev, listMax ((ldb.epochByVersion.filter
          (fun p => decide (p.1 ≤ v))).map Prod.fst) = some ev →
        findTreeRootAtOrBefore ldb tdb v
          = (if rootExistAtVersion tdb ev then some ev else none)) ∧
    (findClosestNodeVersionAtOrBefore tdb v = none →
      findTreeRootAtOrBefore ldb tdb v = none) ∧
    (∀ cv, findClosestNodeVersionAtOrBefore tdb v = some cv →
      rootExistAtVersion tdb cv = false →
      listMax ((ldb.epochByVersion.filter
          (fun p => decide (p.1 ≤ v))).map Prod.fst) = none →
      findTreeRootAtOrBefore ldb tdb v = none) := by
  refine ⟨fun r h => findTreeRoot_sound h, ?_, ?_, ?_, ?_⟩
  · intro cv hc hr
    unfold findTreeRootAtOrBefore
    simp only [hc]
    rw [if_pos hr]
  · intro cv hc hr ev he
    unfold findTreeRootAtOrBefore
    simp only [hc]
    rw [if_neg (by rw [hr]; exact Bool.false_ne_true)]
    simp only [he]
  · intro hc
    unfold findTreeRootAtOrBefore
    simp only [hc]
  · intro cv hc hr he
    unfold findTreeRootAtOrBefore
    simp only [hc]
    rw [if_neg (by rw [hr]; exact Bool.false_ne_true)]
    simp only [he]

theorem find_tree_root_spec_witness :
    (rootExistAtVersion exTreeRoots 50 = true ∧ (50 : Nat) ≤ 90) ∧
    findTreeRootAtOrBefore exLedgerEmpty exTreeRoots 90 = some 50 ∧
    findTreeRootAtOrBefore exLedger1 exTreeE 10
      = (if rootExistAtVersion exTreeE 0 then some 0 else none) ∧
    findTreeRootAtOrBefore exLedgerEmpty exTreeAhead 0 = none ∧
    findTreeRootAtOrBefore exLedgerEmpty exTreeE 10 = none :=
  ⟨(find_tree_root_spec exLedgerEmpty exTreeRoots 90).1 50 (by decide),
   (find_tree_root_spec exLedgerEmpty exTreeRoots 90).2.1 50 (by decide) (by decide),
   (find_tree_root_spec exLedger1 exTreeE 10).2.2.1 5 (by decide) (by decide) 0 (by decide),
   (find_tree_root_spec exLedgerEmpty exTreeAhead 0).2.2.2.1 (by decide),
   (find_tree_root_spec exLedgerEmpty exTreeE 10).2.2.2.2 5 (by decide) (by decide)
     (by decide)⟩

/-- C10: before any mutation, `Cmd::run` requires the ledger store's
current version to be at least the state-merkle store's current version;
when the tree store is ahead the assertion fires and the run returns no
result, having written nothing (both assertions precede every batch
write). -/
theorem run_aborts_when_tree_ahead (ldb : LedgerDB) (tdb : TreeDB) (t B lv tv : Nat)
    (hl : getCurrentVersionInLedgerDb ldb = some lv)
    (ht : getCurrentVersionInStateMerkleDb tdb = some tv)
    (hlt : lv < tv) :
    runCmd ldb tdb t B = none := by
  unfold runCmd
  simp only [hl, ht]
  by_cases hg : t ≤ lv
  · rw [if_pos hg, if_neg (by omega)]
  · rw [if_neg hg]

theorem run_aborts_when_tree_ahead_witness :
    (getCurrentVersionInLedgerDb exLedger0 = some 0 ∧
      getCurrentVersionInStateMerkleDb exTreeAhead = some 1 ∧ (0 : Nat) < 1) ∧
    runCmd exLedger0 exTreeAhead 0 1 = none :=
  ⟨by decide, run_aborts_when_tree_ahead exLedger0 exTreeAhead 0 1 0 1 (by decide)
    (by decide) (by decide)⟩

/-- C5: after one atomically applied ledger batch (and hence in any state
a crash between batches leaves behind), every surviving accumulator node
sits strictly below the boundary position of
`current_ledger_version() + 1` leaves and the store reads back
`start_version - 1` as current; and after one atomically applied tree
batch, every surviving tree node sits at or below
`current_tree_version()`. -/
theorem invariant_after_batch (db : LedgerDB) (cv t s c : Nat) (out : LedgerDB)
    (tdb tout : TreeDB) (wv : Nat)
    (hwf : LedgerWF db cv) (hs : t + 1 ≤ s) (hsc : s ≤ c) (hc : c ≤ cv)
    (hrun : truncateLedgerDbSingleBatch (ledgerTruncatedAt db c) s (c + 1) = some out)
    (htb : tdb.nodes.all (fun p => decide (p.1.version < u64Max)) = true)
    (htrun : truncateStateMerkleBatch tdb wv = some tout) :
    getCurrentVersionInLedgerDb out = some (s - 1) ∧
    accumulatorBelowBoundary out = true ∧
    treeNodesBelowCurrent tout = true := by
  have hout : out = ledgerTruncatedAt db (s - 1) := by
    have hsome := truncateLedgerDbSingleBatch_truncated db hwf (by omega) hsc hc
    rw [hrun] at hsome
    exact Option.some.inj hsome
  subst hout
  refine ⟨getCurrentVersion_truncated db hwf (by omega),
    accumulatorBelowBoundary_truncated db hwf (by omega), ?_⟩
  have hb : ∀ p ∈ tout.nodes, p.1.version < u64Max := by
    intro p hp
    have hmid := treeBatch_nodes htrun
    rw [hmid] at hp
    have := List.all_eq_true.mp htb p (List.mem_filter.mp hp).1
    simp only [decide_eq_true_eq] at this
    exact this
  exact treeNodesBelowCurrent_of_bound hb

theorem invariant_after_batch_witness :
    (LedgerWF exLedger1 1 ∧ (0 : Nat) + 1 ≤ 1 ∧ (1 : Nat) ≤ 1 ∧ (1 : Nat) ≤ 1 ∧
      truncateLedgerDbSingleBatch (ledgerTruncatedAt exLedger1 1) 1 2
        = some (ledgerTruncatedAt exLedger1 0) ∧
      exTree01.nodes.all (fun p => decide (p.1.version < u64Max)) = true ∧
      truncateStateMerkleBatch exTree01 1 = some (treeTruncatedAt exTree01 0)) ∧
    (getCurrentVersionInLedgerDb (ledgerTruncatedAt exLedger1 0) = some 0 ∧
     accumulatorBelowBoundary (ledgerTruncatedAt exLedger1 0) = true ∧
     treeNodesBelowCurrent (treeTruncatedAt exTree01 0) = true) :=
  ⟨by decide, invariant_after_batch exLedger1 1 0 1 1 (ledgerTruncatedAt exLedger1 0)
    exTree01 (treeTruncatedAt exTree01 0) 1 (by decide) (by decide) (by decide)
    (by decide) (by decide) (by decide) (by decide)⟩

theorem run_second_noop (l1 : LedgerDB) (t1 : TreeDB) (t B : Nat)
    (hl1 : getCurrentVersionInLedgerDb l1 = some t)
    (ht1 : getCurrentVersionInStateMerkleDb t1 = some t)
    (hroot1 : rootExistAtVersion t1 t = true) :
    runCmd l1 t1 t B = some (l1, t1) := by
  have hfc : findClosestNodeVersionAtOrBefore t1 t = some t := by
    refine findClosest_at_current ?_ hroot1
    intro p hp hpred
    simp only [Bool.or_eq_true, Bool.and_eq_true, decide_eq_true_eq] at hpred
    rcases hpred with h | ⟨h, -⟩ <;> omega
  have hfr2 : findTreeRootAtOrBefore l1 t1 t = some t := by
    unfold findTreeRootAtOrBefore
    simp only [hfc]
    rw [if_pos hroot1]
  have hts2 : truncateStateMerkleDb t1 t = some t1 := by
    unfold truncateStateMerkleDb
    rw [truncateStateMerkleDbLoop]
    simp [ht1]
  have htl2 : truncateLedgerDb l1 t t B = some l1 := by
    unfold truncateLedgerDb
    rw [Nat.sub_self, truncateLedgerDbLoop, if_pos (Nat.le_refl t), if_pos rfl]
    rfl
  unfold runCmd
  simp only [hl1, ht1, hfr2, hts2, htl2]
  rw [if_pos (Nat.le_refl t), if_pos (Nat.le_refl t), if_neg (Nat.lt_irrefl t)]

/-- C9 counterexample: on a store whose transaction-info table holds only
the current version, one orchestrator run succeeds, but re-running it with
the same arguments dies reading the now-empty table — a state on which one
run succeeds need not make the second run a no-op. -/
theorem run_idempotent_counterexample :
    (runCmd exLedgerX exTree01 0 1).isSome = true ∧
    (runCmd exLedgerX exTree01 0 1).bind (fun p => runCmd p.1 p.2 0 1) = none := by
  decide

/-- C9 (amended): from a well-formed ledger store, whenever one
orchestrator run succeeds, immediately re-running it with the same target
and batch size succeeds as a no-op and returns exactly the stores the
first run produced. -/
theorem run_idempotent (ldb : LedgerDB) (tdb : TreeDB) (t B cv : Nat)
    (l1 : LedgerDB) (t1 : TreeDB)
    (hwf : LedgerWF ldb cv)
    (hrun : runCmd ldb tdb t B = some (l1, t1)) :
    runCmd l1 t1 t B = some (l1, t1) := by
  have h12 : 2 * (cv + 1) < u64Mod := hwf.2.2.2.2.2.2.2.2.2.2.2
  unfold runCmd at hrun
  rcases hlv : getCurrentVersionInLedgerDb ldb with _ | lv <;> simp only [hlv] at hrun
  · exact absurd hrun (by simp)
  rcases htv : getCurrentVersionInStateMerkleDb tdb with _ | tv <;> simp only [htv] at hrun
  · exact absurd hrun (by simp)
  have hlvcv : lv = cv := by
    have hsome := getCurrentVersion_eq_of_wf ldb hwf
    rw [hlv] at hsome
    exact Option.some.inj hsome
  by_cases hg1 : t ≤ lv
  swap
  · rw [if_neg hg1] at hrun
    exact absurd hrun (by simp)
  rw [if_pos hg1] at hrun
  by_cases hg2 : tv ≤ lv
  swap
  · rw [if_neg hg2] at hrun
    exact absurd hrun (by simp)
  rw [if_pos hg2] at hrun
  rcases hfr : findTreeRootAtOrBefore ldb tdb t with _ | smT <;> simp only [hfr] at hrun
  · exact absurd hrun (by simp)
  obtain ⟨hrootSmT, hsmTle⟩ := findTreeRoot_sound hfr
  rcases hts : truncateStateMerkleDb tdb smT with _ | tdb1 <;> simp only [hts] at hrun
  · exact absurd hrun (by simp)
  rcases htl : truncateLedgerDb ldb lv t B with _ | ldb1 <;> simp only [htl] at hrun
  · exact absurd hrun (by simp)
  rw [hlvcv] at htl
  have hl1cur : getCurrentVersionInLedgerDb ldb1 = some t :=
    truncateLedgerDb_currentVersion hwf htl
  have hloopPost : getCurrentVersionInStateMerkleDb tdb1 = some smT ∧
      (∀ p ∈ tdb.nodes, p.1.version ≤ smT → p ∈ tdb1.nodes) := by
    unfold truncateStateMerkleDb at hts
    rcases hl : truncateStateMerkleDbLoop (tdb.nodes.length + 1) tdb smT with _ | r <;>
      simp only [hl] at hts
    · exact absurd hts (by simp)
    · obtain ⟨ha, hb, -⟩ := treeLoop_post (tdb.nodes.length + 1) tdb r.1 smT r.2
        (by rw [hl])
      have hr1 : r.1 = tdb1 := Option.some.inj hts
      rw [hr1] at ha hb
      exact ⟨ha, hb⟩
  obtain ⟨htd1cur, hsurv⟩ := hloopPost
  have hroot1 : rootExistAtVersion tdb1 smT = true := by
    obtain ⟨p, hp, hpr⟩ := List.any_eq_true.mp hrootSmT
    refine List.any_eq_true.mpr ⟨p, ?_, hpr⟩
    have hv : p.1.version = smT := by
      have hpr2 := hpr
      simp only [Bool.and_eq_true, decide_eq_true_eq] at hpr2
      exact hpr2.1
    exact hsurv p hp (by omega)
  by_cases hcase : smT < t
  · rw [if_pos hcase] at hrun
    injection hrun with hrun
    injection hrun with hre1 hre2
    have hTmax : t < u64Max := by
      unfold u64Mod u64Max at *
      omega
    obtain ⟨hcur1, hroot1'⟩ := catchUp_post hl1cur htd1cur hcase hTmax
    rw [hre2] at hcur1 hroot1'
    exact run_second_noop l1 t1 t B (hre1 ▸ hl1cur) hcur1 hroot1'
  · rw [if_neg hcase] at hrun
    injection hrun with hrun
    injection hrun with hre1 hre2
    have hsmTt : smT = t := by omega
    subst hsmTt
    exact run_second_noop l1 t1 smT B (hre1 ▸ hl1cur) (hre2 ▸ htd1cur) (hre2 ▸ hroot1)

theorem run_idempotent_witness :
    (LedgerWF exLedger1 1 ∧
      runCmd exLedger1 exTree01 0 1
        = some (ledgerTruncatedAt exLedger1 0, treeTruncatedAt exTree01 0)) ∧
    runCmd (ledgerTruncatedAt exLedger1 0) (treeTruncatedAt exTree01 0) 0 1
      = some (ledgerTruncatedAt exLedger1 0, treeTruncatedAt exTree01 0) :=
  ⟨⟨by decide, by decide⟩, run_idempotent exLedger1 exTree01 0 1 1
    (ledgerTruncatedAt exLedger1 0) (treeTruncatedAt exTree01 0) (by decide) (by decide)⟩
